import Mathlib

/-!
Verification model of the TO-DO_App_CLI repository.

The core under verification is the `todo_list` library crate
(`src/todo_list/src/lib.rs`): the `TodoItem` and `TodoList` structures and
their operations.  The binary `src/src/main.rs` contains an older duplicated
copy of the same module; where the two copies diverge (JSON read policy) the
divergent variant is modelled separately (`read_json_main`).

Modelling conventions:
* Rust `String` is Lean `String`; character-level operations (`lines`,
  `splitn`, `trim`, `to_ascii_lowercase`) are re-implemented over `List Char`
  with Rust std semantics.
* `HashMap<String, TodoItem>` is an association list `List (String × TodoItem)`.
  The map iteration order, which Rust leaves unspecified, is fixed to list
  order; `insert` on a fresh key appends.  All quantified properties proved
  below are insensitive to this choice where the original is unordered.
* `u32` is `Nat`; arithmetic that can overflow is taken modulo `2 ^ 32`
  (release-profile wrapping semantics).
* A Rust panic (out-of-bounds index, `unwrap` on `Err`) is `Option.none`.
* File I/O is dropped: serialization functions return the file content and
  deserialization functions take it; for JSON, the external `serde_json`
  text layer is abstracted into a `Json` value tree, so a deserializer takes
  the outcome of parsing (`Except String Json`) as input.
-/

/-- Modulus of Rust `u32` arithmetic. -/
def u32Mod : Nat := 4294967296

/-- Rust `char::to_ascii_lowercase`: maps `A`..`Z` (code points 65..90) to
`a`..`z` by adding 32; every other character is unchanged. -/
def asciiLowerChar (c : Char) : Char :=
  if 65 ≤ c.toNat ∧ c.toNat ≤ 90 then Char.ofNat (c.toNat + 32) else c

/-- Rust `str::to_ascii_lowercase`, applied characterwise. -/
def toAsciiLower (s : String) : String :=
  ⟨s.data.map asciiLowerChar⟩

/-- Decimal digit character for a value below 10. -/
def digitChar (d : Nat) : Char := Char.ofNat (48 + d)

/-- Fuel-driven decimal rendering (structural recursion so that it evaluates
definitionally); `fuel` must exceed `n`. -/
def natToCharsFuel : Nat → Nat → List Char
  | 0, _ => []
  | fuel + 1, n =>
    if n < 10 then [digitChar n]
    else natToCharsFuel fuel (n / 10) ++ [digitChar (n % 10)]

/-- Decimal rendering of a natural number, most significant digit first;
this is Rust's `Display` for unsigned integers as used by `format!`. -/
def natToChars (n : Nat) : List Char := natToCharsFuel (n + 1) n

/-- Model of `TodoItem` (src/todo_list/src/lib.rs lines 9-14): an id, a
description and a completion flag. -/
structure TodoItem where
  id : Nat
  description : String
  done : Bool
deriving DecidableEq, Repr

/-- Model of `TodoItem::build`: fresh items always start with `done = false`. -/
def TodoItem.build (next_id : Nat) (description : String) : TodoItem :=
  ⟨next_id, description, false⟩

/-- Model of `TodoItem::header_of_csv`. -/
def TodoItem.header_of_csv : String := "Id,Description,Done"

/-- Model of `TodoItem::elem_in_csv`: `format!("{},{},{}", id, description, done)`,
with the Rust `bool` rendered as `true`/`false`. -/
def TodoItem.elem_in_csv (it : TodoItem) : String :=
  ⟨natToChars it.id ++ ',' :: it.description.data ++
    ',' :: (if it.done then "true" else "false").data⟩

/-- Model of `TodoList` (src/todo_list/src/lib.rs lines 63-67): the item map
keyed by description, plus the monotone id counter. -/
structure TodoList where
  list : List (String × TodoItem)
  next_id : Nat
deriving DecidableEq, Repr

/-- Model of `TodoList::build`: the empty collection, `next_id = 0`. -/
def TodoList.build : TodoList := ⟨[], 0⟩

/-- `HashMap::get` on the association-list model. -/
def lookupKey (k : String) : List (String × TodoItem) → Option TodoItem
  | [] => none
  | (k', v) :: rest => if k' = k then some v else lookupKey k rest

/-- `HashMap::remove` on the association-list model: the remaining entries and
the evicted value, if any. -/
def removeKey (k : String) : List (String × TodoItem) → List (String × TodoItem) × Option TodoItem
  | [] => ([], none)
  | (k', v) :: rest =>
    if k' = k then (rest, some v)
    else
      let r := removeKey k rest
      ((k', v) :: r.1, r.2)

/-- `HashMap::insert` on the association-list model: replace the value stored
under an existing key, otherwise append a new entry. -/
def hmInsert (k : String) (v : TodoItem) : List (String × TodoItem) → List (String × TodoItem)
  | [] => [(k, v)]
  | (k', v') :: rest =>
    if k' = k then (k', v) :: rest else (k', v') :: hmInsert k v rest

/-- In-place toggle of the `done` flag of the entry under key `k`
(`get_mut` + `TodoItem::update`); returns the new flag when the key is found. -/
def toggleKey (k : String) : List (String × TodoItem) → List (String × TodoItem) × Option Bool
  | [] => ([], none)
  | (k', v) :: rest =>
    if k' = k then ((k', ⟨v.id, v.description, !v.done⟩) :: rest, some (!v.done))
    else
      let r := toggleKey k rest
      ((k', v) :: r.1, r.2)

/-- In-place toggle of the `done` flag of the first entry with id `i`. -/
def toggleId (i : Nat) : List (String × TodoItem) → List (String × TodoItem) × Option Bool
  | [] => ([], none)
  | (k', v) :: rest =>
    if v.id = i then ((k', ⟨v.id, v.description, !v.done⟩) :: rest, some (!v.done))
    else
      let r := toggleId i rest
      ((k', v) :: r.1, r.2)

/-- Linear scan over the values for an item with id `i`. -/
def findById (i : Nat) : List (String × TodoItem) → Option TodoItem
  | [] => none
  | (_, v) :: rest => if v.id = i then some v else findById i rest

/-- Linear scan for the key of the first entry whose item has id `i`
(the `for`/`break` loop of `remove_by_id`). -/
def findKeyById (i : Nat) : List (String × TodoItem) → Option String
  | [] => none
  | (k, v) :: rest => if v.id = i then some k else findKeyById i rest

/-- Model of `TodoList::get_item_by_description` (lib.rs lines 80-85): a plain
`HashMap::get` with the caller's raw text — the input is NOT lowercased. -/
def TodoList.get_item_by_description (t : TodoList) (todo_description : String) : Option TodoItem :=
  lookupKey todo_description t.list

/-- Model of `TodoList::get_item_by_id` (lib.rs lines 88-95). -/
def TodoList.get_item_by_id (t : TodoList) (todo_id : Nat) : Option TodoItem :=
  findById todo_id t.list

/-- Model of `TodoList::insert` (lib.rs lines 121-132): looks up the lowercased
description; on a vacant entry stores a fresh item (whose stored description is
also the lowercased text) under it, increments `next_id` and returns `true`;
on an occupied entry returns `false` without mutating. -/
def TodoList.insert (t : TodoList) (todo_description : String) : Bool × TodoList :=
  match lookupKey (toAsciiLower todo_description) t.list with
  | some _ => (false, t)
  | none =>
    (true,
      ⟨t.list ++ [(toAsciiLower todo_description,
                   TodoItem.build t.next_id (toAsciiLower todo_description))],
       (t.next_id + 1) % u32Mod⟩)

/-- Model of `TodoList::update_todo_item_description` (lib.rs lines 98-106). -/
def TodoList.update_todo_item_description (t : TodoList) (todo_description : String) :
    TodoList × Option Bool :=
  let r := toggleKey (toAsciiLower todo_description) t.list
  (⟨r.1, t.next_id⟩, r.2)

/-- Model of `TodoList::update_todo_item_id` (lib.rs lines 109-117). -/
def TodoList.update_todo_item_id (t : TodoList) (i : Nat) : TodoList × Option Bool :=
  let r := toggleId i t.list
  (⟨r.1, t.next_id⟩, r.2)

/-- Model of `TodoList::remove_by_description` (lib.rs lines 135-137). -/
def TodoList.remove_by_description (t : TodoList) (todo_description : String) :
    TodoList × Option TodoItem :=
  let r := removeKey (toAsciiLower todo_description) t.list
  (⟨r.1, t.next_id⟩, r.2)

/-- Model of `TodoList::remove_by_id` (lib.rs lines 140-153). -/
def TodoList.remove_by_id (t : TodoList) (i : Nat) : TodoList × Option TodoItem :=
  match findKeyById i t.list with
  | none => (t, none)
  | some k =>
    let r := removeKey k t.list
    (⟨r.1, t.next_id⟩, r.2)

example : (TodoList.build.insert "Milk").2.list =
    [("milk", ⟨0, "milk", false⟩)] := by decide

example : ((TodoList.build.insert "Milk").2.insert "MILK").1 = false := by decide

/-! ### CSV serialization (content level) -/

/-- Concatenation of one `elem_in_csv` record plus `"\n"` per stored item, in
map iteration order (the loop body of `save_csv`). -/
def joinRows : List (String × TodoItem) → List Char
  | [] => []
  | p :: rest => (TodoItem.elem_in_csv p.2).data ++ '\n' :: joinRows rest

/-- Model of `TodoList::save_csv` (lib.rs lines 204-213): the CSV file content,
a header line followed by one record line per item.  (The actual file write is
dropped; the function returns the written content.) -/
def TodoList.save_csv (t : TodoList) : String :=
  ⟨TodoItem.header_of_csv.data ++ '\n' :: joinRows t.list⟩

/-- Rust `str::split` on a single separator character: the (always nonempty)
list of pieces between occurrences of `c`. -/
def splitChar (c : Char) : List Char → List (List Char)
  | [] => [[]]
  | x :: xs =>
    if x = c then [] :: splitChar c xs
    else
      match splitChar c xs with
      | [] => [[x]]
      | y :: ys => (x :: y) :: ys

/-- Splits at the first occurrence of `c`, if any: Rust
`str::splitn`'s single step. -/
def splitFirst (c : Char) : List Char → Option (List Char × List Char)
  | [] => none
  | x :: xs =>
    if x = c then some ([], xs)
    else
      match splitFirst c xs with
      | none => none
      | some p => some (x :: p.1, p.2)

/-- Rust `str::splitn(n, c)`: at most `n` pieces, the last piece keeping any
further separators. -/
def splitnChar : Nat → Char → List Char → List (List Char)
  | 0, _, _ => []
  | 1, _, l => [l]
  | n + 2, c, l =>
    match splitFirst c l with
    | none => [l]
    | some p => p.1 :: splitnChar (n + 1) c p.2

/-- Strip one trailing carriage return (the `\r` handling of Rust
`str::lines`). -/
def stripCR (l : List Char) : List Char :=
  if l.getLast? = some '\r' then l.dropLast else l

/-- Rust `str::lines`: split on `'\n'`, drop a final empty piece produced by a
trailing terminator, and strip a `'\r'` before each terminator.  An
unterminated final line is returned as is. -/
def rustLines (l : List Char) : List (List Char) :=
  match (splitChar '\n' l).reverse with
  | [] => []
  | last :: revInit =>
    revInit.reverse.map stripCR ++ (if last = [] then [] else [last])

/-- Rust `char::is_whitespace` restricted to the ASCII range (code points
9-13 and 32); the inputs in scope contain no non-ASCII Unicode whitespace. -/
def isRustWhitespace (c : Char) : Bool :=
  (9 ≤ c.toNat && c.toNat ≤ 13) || c.toNat = 32

/-- ASCII decimal digit test (`char::is_ascii_digit`). -/
def isAsciiDigit (c : Char) : Bool :=
  48 ≤ c.toNat && c.toNat ≤ 57

/-- Rust `str::trim`: drop whitespace from both ends. -/
def rustTrim (l : List Char) : List Char :=
  ((l.dropWhile isRustWhitespace).reverse.dropWhile isRustWhitespace).reverse

/-- Digit part of `u32::from_str`: one or more decimal digits whose value is
below `2^32`. -/
def parseU32digits (l : List Char) : Option Nat :=
  if l ≠ [] ∧ l.all isAsciiDigit then
    if l.foldl (fun a c => a * 10 + (c.toNat - 48)) 0 < u32Mod then
      some (l.foldl (fun a c => a * 10 + (c.toNat - 48)) 0)
    else none
  else none

/-- Rust `u32::from_str`: an optional leading `+`, then one or more decimal
digits, rejecting values of `2^32` or more. -/
def parseU32 (l : List Char) : Option Nat :=
  parseU32digits (if l.head? = some '+' then l.tail else l)

/-- One data line of `read_csv` (lib.rs lines 232-248): `splitn(3, ',')`, then
index the three fields, `trim`+`parse().unwrap()` the id, and read `done` by
exact comparison with `"true"`.  `none` models a Rust panic: fewer than three
fields makes `v[2]` an out-of-bounds index, and a non-numeric id makes
`unwrap` panic. -/
def parseCsvLine (line : List Char) : Option (String × TodoItem) :=
  match splitnChar 3 ',' line with
  | idf :: descf :: donef :: _ =>
    match parseU32 (rustTrim idf) with
    | none => none
    | some n => some (⟨descf⟩, ⟨n, ⟨descf⟩, decide (donef = "true".data)⟩)
  | _ => none

/-- All data lines of `read_csv`, propagating a panic on any line. -/
def parseRows : List (List Char) → Option (List (String × TodoItem))
  | [] => some []
  | l :: ls =>
    match parseCsvLine l, parseRows ls with
    | some kv, some kvs => some (kv :: kvs)
    | _, _ => none

/-- Model of `TodoList::read_csv` (lib.rs lines 218-254), at file-content
level: skip the header line, parse every remaining line, track the running
maximum id (`id_max`, starting at 0), collect the rows into the map keyed by
the raw description field, and set `next_id = id_max + 1`.  `none` models a
panic inside the line parser; the file-open error path is outside the content
model. -/
def TodoList.read_csv (content : String) : Option TodoList :=
  let rows := (rustLines content.data).drop 1
  match parseRows rows with
  | none => none
  | some kvs =>
    let idMax := kvs.foldl (fun m kv => if m < kv.2.id then kv.2.id else m) 0
    some ⟨kvs.foldl (fun acc kv => hmInsert kv.1 kv.2 acc) [], (idMax + 1) % u32Mod⟩

example : TodoList.build.save_csv = "Id,Description,Done\n" := by decide

example : TodoList.read_csv "Id,Description,Done\n" = some ⟨[], 1⟩ := by decide

example : TodoList.read_csv "Id,Description,Done\n0,milk,true\n" =
    some ⟨[("milk", ⟨0, "milk", true⟩)], 1⟩ := by decide

example : TodoList.read_csv "Id,Description,Done\nhello" = none := by decide

/-! ### JSON serialization (value-tree level)

`serde_json` text is abstracted into a JSON value tree: `to_string` /
`to_string_pretty` differ only in the whitespace of the rendering, so both are
modelled by the same `Json` value, and a deserializer receives the outcome of
the text parse (`Except String Json`) instead of raw text. -/

/-- JSON value tree. -/
inductive Json where
  | null
  | bool (b : Bool)
  | num (n : Int)
  | str (s : String)
  | arr (elems : List Json)
  | obj (fields : List (String × Json))

/-- Derived `Serialize` for `TodoItem`: fields in declaration order. -/
def encodeTodoItem (it : TodoItem) : Json :=
  .obj [("id", .num it.id), ("description", .str it.description), ("done", .bool it.done)]

/-- Model of `TodoList::to_json` / `to_json_pretty` (lib.rs lines 156-163):
the derived `Serialize` output `{list, next_id}` with the map serialized in
iteration order. -/
def TodoList.to_json (t : TodoList) : Json :=
  .obj [("list", .obj (t.list.map fun p => (p.1, encodeTodoItem p.2))),
        ("next_id", .num t.next_id)]

/-- Derived `Deserialize` for `u32`: an integer in `[0, 2^32)`. -/
def decodeU32 : Json → Option Nat
  | .num n => if 0 ≤ n ∧ n < (u32Mod : Int) then some n.toNat else none
  | _ => none

/-- Derived `Deserialize` for `TodoItem`: a JSON object whose fields `id`,
`description`, `done` each appear exactly once and nothing else, in any order
(slot-filling visitor; duplicate or unknown fields are errors). -/
def decodeTodoItemFields : List (String × Json) → Option Nat → Option String → Option Bool →
    Option TodoItem
  | [], i, d, b =>
    match i, d, b with
    | some i, some d, some b => some ⟨i, d, b⟩
    | _, _, _ => none
  | (k, v) :: rest, i, d, b =>
    if k = "id" then
      match i with
      | some _ => none
      | none => (decodeU32 v).bind fun n => decodeTodoItemFields rest (some n) d b
    else if k = "description" then
      match d, v with
      | none, .str s => decodeTodoItemFields rest i (some s) b
      | _, _ => none
    else if k = "done" then
      match b, v with
      | none, .bool x => decodeTodoItemFields rest i d (some x)
      | _, _ => none
    else none

/-- Derived `Deserialize` for `TodoItem` on a whole value. -/
def decodeTodoItem : Json → Option TodoItem
  | .obj fields => decodeTodoItemFields fields none none none
  | _ => none

/-- `Deserialize` for `HashMap<String, TodoItem>`: visit the map entries in
order, inserting each (a later duplicate key overwrites the earlier entry). -/
def decodeItemMap : List (String × Json) → List (String × TodoItem) →
    Option (List (String × TodoItem))
  | [], acc => some acc
  | (k, v) :: rest, acc =>
    (decodeTodoItem v).bind fun it => decodeItemMap rest (hmInsert k it acc)

/-- Derived `Deserialize` for `TodoList`: a JSON object with exactly the
fields `list` (a map) and `next_id` (a `u32`). -/
def decodeTodoListFields : List (String × Json) → Option (List (String × TodoItem)) →
    Option Nat → Option TodoList
  | [], m, n =>
    match m, n with
    | some m, some n => some ⟨m, n⟩
    | _, _ => none
  | (k, v) :: rest, m, n =>
    if k = "list" then
      match m, v with
      | none, .obj fs =>
        (decodeItemMap fs []).bind fun m' => decodeTodoListFields rest (some m') n
      | _, _ => none
    else if k = "next_id" then
      match n with
      | some _ => none
      | none => (decodeU32 v).bind fun n' => decodeTodoListFields rest m (some n')
    else none

/-- Derived `Deserialize` for `TodoList` on a whole value. -/
def decodeTodoList : Json → Option TodoList
  | .obj fields => decodeTodoListFields fields none none
  | _ => none

/-- Outcome mapping of the library's `read_json` on a syntactically valid
input: a data error is wrapped like a parse error, a decoded value is `Ok`. -/
def jsonOutcome (r : Option TodoList) : Except String TodoList :=
  match r with
  | none => .error ("Error reading / opening file ::: " ++ "invalid contents")
  | some t => .ok t

/-- Model of `TodoList::read_json` of the library crate (lib.rs lines
168-194), at content level: the input is the outcome of `serde_json`'s parse
of the file text.  Any deserialization failure is wrapped into a distinct
`Err` built from the message prefix `"Error reading / opening file ::: "`;
a successful parse of a structurally valid value is returned as `Ok`.
(The file-open error path, which is also propagated, is outside the content
model; serde's own message text for data errors is abstracted to a fixed
string.) -/
def TodoList.read_json (parsed : Except String Json) : Except String TodoList :=
  match parsed with
  | .error e => .error ("Error reading / opening file ::: " ++ e)
  | .ok j => jsonOutcome (decodeTodoList j)

/-- Model of the divergent `read_json` duplicated in `src/src/main.rs` (lines
164-182): any deserialization failure is printed and silently replaced by the
empty collection `TodoList::build()`, which is returned as `Ok`. -/
def read_json_main (parsed : Except String Json) : Except String TodoList :=
  match parsed with
  | .error _ => .ok TodoList.build
  | .ok j =>
    match decodeTodoList j with
    | none => .ok TodoList.build
    | some t => .ok t

example : TodoList.read_json (.ok (TodoList.to_json (TodoList.build.insert "Milk").2)) =
    .ok (TodoList.build.insert "Milk").2 := rfl

/-! ### Specification predicates, operation traces, reachability -/

/-- Every stored key is the lowercased description of its item. -/
def KeyNorm (t : TodoList) : Prop :=
  ∀ p ∈ t.list, p.1 = toAsciiLower p.2.description

/-- Every stored item's id is below the counter. -/
def IdsBelow (t : TodoList) : Prop :=
  ∀ p ∈ t.list, p.2.id < t.next_id

/-- No two stored items share an id. -/
def IdsNodup (t : TodoList) : Prop :=
  (t.list.map fun p => p.2.id).Nodup

/-- The map keys are pairwise distinct (a structural fact of `HashMap` that
the association-list model must carry as a predicate). -/
def KeysNodup (t : TodoList) : Prop :=
  (t.list.map fun p => p.1).Nodup

/-- Structural well-formedness of a model value as an image of the Rust value:
distinct map keys and `u32`-ranged numbers. -/
def Wf (t : TodoList) : Prop :=
  KeysNodup t ∧ t.next_id < u32Mod ∧ ∀ p ∈ t.list, p.2.id < u32Mod

/-- The stored descriptions are pairwise distinct. -/
def DescsNodup (t : TodoList) : Prop :=
  (t.list.map fun p => p.2.description).Nodup

/-- No stored description contains a line feed. -/
def NoNewlineDescs (t : TodoList) : Prop :=
  ∀ p ∈ t.list, '\n' ∉ p.2.description.data

/-- No stored description contains a comma. -/
def NoCommaDescs (t : TodoList) : Prop :=
  ∀ p ∈ t.list, ',' ∉ p.2.description.data

/-- The observable content of a collection: its (id, description, done)
triples in iteration order. -/
def triples (t : TodoList) : List (Nat × String × Bool) :=
  t.list.map fun p => (p.2.id, p.2.description, p.2.done)

/-- The running-maximum fold of `read_csv` (`id_max`), applied to the ids of
a collection's items. -/
def idMaxOf (t : TodoList) : Nat :=
  t.list.foldl (fun m p => if m < p.2.id then p.2.id else m) 0

/-- One user-level operation on the collection. -/
inductive Op where
  | add (d : String)
  | rmDesc (d : String)
  | rmId (i : Nat)
  | updDesc (d : String)
  | updId (i : Nat)

/-- Apply one operation; a successful insert also reports the id it assigned
(the value of `next_id` at that moment). -/
def stepOp (t : TodoList) : Op → TodoList × Option Nat
  | .add d =>
    let r := t.insert d
    (r.2, if r.1 then some t.next_id else none)
  | .rmDesc d => ((t.remove_by_description d).1, none)
  | .rmId i => ((t.remove_by_id i).1, none)
  | .updDesc d => ((t.update_todo_item_description d).1, none)
  | .updId i => ((t.update_todo_item_id i).1, none)

/-- Run a trace of operations from a start state, logging the assigned ids of
the successful inserts in order. -/
def runFrom (t : TodoList) (log : List Nat) : List Op → TodoList × List Nat
  | [] => (t, log)
  | op :: ops =>
    let r := stepOp t op
    runFrom r.1 (match r.2 with | some i => log ++ [i] | none => log) ops

/-- Run a trace of operations from the empty collection. -/
def runLog (ops : List Op) : TodoList × List Nat :=
  runFrom TodoList.build [] ops

/-- Collections reachable from the empty collection through the public
operations.  The index counts the insert operations performed.  Deserialization
enters only through round-trips of the collection's own serialized form: a CSV
round-trip additionally requires line-feed–free descriptions (see the C6
counterexample for why), and the panic case of `read_csv` produces no
collection at all. -/
inductive Reachable : Nat → TodoList → Prop where
  | base : Reachable 0 TodoList.build
  | step_insert (d : String) : Reachable n t → Reachable (n + 1) (t.insert d).2
  | step_update_desc (d : String) : Reachable n t →
      Reachable n (t.update_todo_item_description d).1
  | step_update_id (i : Nat) : Reachable n t → Reachable n (t.update_todo_item_id i).1
  | step_remove_desc (d : String) : Reachable n t →
      Reachable n (t.remove_by_description d).1
  | step_remove_id (i : Nat) : Reachable n t → Reachable n (t.remove_by_id i).1
  | step_csv : Reachable n t → NoNewlineDescs t →
      TodoList.read_csv t.save_csv = some t' → Reachable n t'
  | step_json : Reachable n t →
      TodoList.read_json (.ok t.to_json) = .ok t' → Reachable n t'

/-- What one stored entry becomes after a CSV round-trip: re-keyed by the
description truncated at its first comma, with `done` degrading to `false`
when the description contains a comma (see `parseCsvLine_row` below). -/
def truncItem (p : String × TodoItem) : String × TodoItem :=
  (⟨p.2.description.data.takeWhile (fun x => x ≠ ',')⟩,
   ⟨p.2.id, ⟨p.2.description.data.takeWhile (fun x => x ≠ ',')⟩,
    if ',' ∈ p.2.description.data then false else p.2.done⟩)

/-! ### Association-list lemmas -/

theorem lookupKey_append_of_none {k : String} {l₁ l₂ : List (String × TodoItem)}
    (h : lookupKey k l₁ = none) : lookupKey k (l₁ ++ l₂) = lookupKey k l₂ := by
  induction l₁ with
  | nil => rfl
  | cons p rest ih =>
    obtain ⟨k', v⟩ := p
    rw [List.cons_append]
    simp only [lookupKey] at h ⊢
    split at h
    · exact absurd h (Option.some_ne_none _)
    · rw [if_neg (by assumption)]
      exact ih h

theorem lookupKey_single {k k' : String} {v : TodoItem} :
    lookupKey k [(k', v)] = if k' = k then some v else none := rfl

theorem lookupKey_eq_none_iff {k : String} {l : List (String × TodoItem)} :
    lookupKey k l = none ↔ k ∉ l.map Prod.fst := by
  induction l with
  | nil => simp [lookupKey]
  | cons p rest ih =>
    simp only [lookupKey, List.map_cons, List.mem_cons]
    split
    · simp_all
    · rw [ih]
      constructor
      · intro h hk
        rcases hk with hk | hk
        · exact (by assumption : ¬ p.1 = k) hk.symm
        · exact h hk
      · intro h
        exact fun hk => h (Or.inr hk)

/-- Unfolding lemma: `insert` on an occupied normalized key. -/
theorem insert_occupied {t : TodoList} {d : String} {v : TodoItem}
    (h : lookupKey (toAsciiLower d) t.list = some v) : t.insert d = (false, t) := by
  unfold TodoList.insert
  rw [h]

/-- Unfolding lemma: `insert` on a vacant normalized key. -/
theorem insert_fresh {t : TodoList} {d : String}
    (h : lookupKey (toAsciiLower d) t.list = none) :
    t.insert d =
      (true, ⟨t.list ++ [(toAsciiLower d, TodoItem.build t.next_id (toAsciiLower d))],
              (t.next_id + 1) % u32Mod⟩) := by
  unfold TodoList.insert
  rw [h]

/-! ### Claim C1: malformed JSON content is surfaced as an error

The library crate's `read_json` (lib.rs lines 168-194) wraps any
deserialization failure into an `Err` and never substitutes an empty
collection; the duplicated variant in `src/src/main.rs` (lines 164-182)
instead silently returns `Ok(TodoList::build())`. -/

/-- C1 (amended): the library crate's `read_json` maps every syntactically
invalid input (a failed parse outcome) to a distinct wrapped error and never
to a collection; the divergent `main.rs` copy does not share this property
(see the counterexample). -/
theorem c1_lib_read_json_surfaces_malformed (e : String) :
    TodoList.read_json (.error e) =
      .error ("Error reading / opening file ::: " ++ e) := rfl

/-- C1 counterexample: the `read_json` duplicated in `src/src/main.rs`
silently returns the empty collection (an `Ok`, not an error) on a
syntactically invalid input, refuting the claim as stated for that variant. -/
theorem c1_counterexample :
    read_json_main (.error "EOF while parsing a value at line 1 column 0") =
      .ok TodoList.build ∧ TodoList.build.list = [] := ⟨rfl, rfl⟩

/-! ### Claim C2: `get_item_by_description` does not normalize its input -/

/-- C2 counterexample: after `insert "Milk"` (stored under the normalized key
`"milk"`), looking up `"Milk"` returns nothing while looking up `"milk"`
returns the item — so lookup of `d` differs from lookup of `lowercase d`, and
an item inserted with one casing is not found when queried with that same
casing. -/
theorem c2_counterexample :
    (TodoList.build.insert "Milk").2.get_item_by_description "Milk" = none ∧
    (TodoList.build.insert "Milk").2.get_item_by_description "milk" =
      some ⟨0, "milk", false⟩ := by
  constructor <;> decide

/-- C2 (amended): `get_item_by_description` performs an exact-key lookup on
the raw input without lowercasing it.  After a fresh insert of `d`, querying
the lowercased text finds the new item, while querying the original text `d`
(when it differs from its lowercase form and is itself not a stored key)
misses it. -/
theorem c2_get_requires_normalized_input (t : TodoList) (d : String)
    (hfresh : lookupKey (toAsciiLower d) t.list = none)
    (hval : lookupKey d t.list = none) (hne : toAsciiLower d ≠ d) :
    (t.insert d).2.get_item_by_description (toAsciiLower d) =
      some (TodoItem.build t.next_id (toAsciiLower d)) ∧
    (t.insert d).2.get_item_by_description d = none := by
  simp only [insert_fresh hfresh, TodoList.get_item_by_description]
  constructor
  · rw [lookupKey_append_of_none hfresh, lookupKey_single, if_pos rfl]
  · rw [lookupKey_append_of_none hval, lookupKey_single, if_neg hne]

/-- C2 witness: the amended property at `t = build`, `d = "Milk"`. -/
theorem c2_witness :
    (TodoList.build.insert "Milk").2.get_item_by_description (toAsciiLower "Milk") =
      some (TodoItem.build TodoList.build.next_id (toAsciiLower "Milk")) ∧
    (TodoList.build.insert "Milk").2.get_item_by_description "Milk" = none :=
  c2_get_requires_normalized_input TodoList.build "Milk" (by decide) (by decide) (by decide)

/-! ### Claim C3: CSV of the empty collection -/

/-- C3 counterexample: deserializing the CSV serialization of the empty
collection does not yield `next_id = 0` (the code computes
`id_max + 1 = 0 + 1 = 1`). -/
theorem c3_counterexample :
    ¬ (TodoList.read_csv TodoList.build.save_csv).map TodoList.next_id = some 0 := by
  decide

/-- C3 (amended): serializing the empty collection to CSV yields exactly the
header line `Id,Description,Done` (newline-terminated) and no data rows, and
deserializing that text yields an empty collection whose `next_id` is 1, not
0 — `read_csv` always reconstructs `next_id` as `id_max + 1` with `id_max`
initialized to 0. -/
theorem c3_empty_roundtrip :
    TodoList.build.save_csv = "Id,Description,Done\n" ∧
    TodoList.read_csv TodoList.build.save_csv = some ⟨[], 1⟩ := by
  constructor <;> decide

/-! ### Claim C4: insert semantics -/

/-- C4: if nothing is stored under the normalized key of `d`, `insert d`
returns `true`, the item count grows by one, and immediately re-inserting any
casing `d'` of the same description returns `false` and leaves the collection
untouched; if the normalized key is occupied, `insert d` returns `false` and
performs no mutation at all. -/
theorem c4_insert_spec (t : TodoList) (d d' : String)
    (hcase : toAsciiLower d' = toAsciiLower d) :
    (lookupKey (toAsciiLower d) t.list = none →
      (t.insert d).1 = true ∧
      (t.insert d).2.list.length = t.list.length + 1 ∧
      (t.insert d).2.insert d' = (false, (t.insert d).2)) ∧
    (lookupKey (toAsciiLower d) t.list ≠ none → t.insert d = (false, t)) := by
  constructor
  · intro hfresh
    have hstep := insert_fresh hfresh
    refine ⟨by rw [hstep], by rw [hstep]; simp, ?_⟩
    have hlk : lookupKey (toAsciiLower d') (t.insert d).2.list =
        some (TodoItem.build t.next_id (toAsciiLower d)) := by
      rw [hstep, hcase, lookupKey_append_of_none hfresh, lookupKey_single, if_pos rfl]
    exact insert_occupied hlk
  · intro hocc
    rcases h : lookupKey (toAsciiLower d) t.list with _ | v
    · exact absurd h hocc
    · exact insert_occupied h

/-- C4 witness: both branches exercised concretely — a fresh insert of
`"Milk"` succeeds and grows the count, re-inserting `"MILK"` fails without
mutation, and a later `insert "MiLk"` on the resulting collection also fails
without mutation. -/
theorem c4_witness :
    ((TodoList.build.insert "Milk").1 = true ∧
     (TodoList.build.insert "Milk").2.list.length = TodoList.build.list.length + 1 ∧
     (TodoList.build.insert "Milk").2.insert "MILK" =
       (false, (TodoList.build.insert "Milk").2)) ∧
    (TodoList.build.insert "Milk").2.insert "MiLk" =
      (false, (TodoList.build.insert "Milk").2) :=
  ⟨(c4_insert_spec TodoList.build "Milk" "MILK" (by decide)).1 (by decide),
   (c4_insert_spec (TodoList.build.insert "Milk").2 "MiLk" "MILK" (by decide)).2 (by decide)⟩

/-! ### Character and decimal-rendering lemmas -/

theorem char_toNat_ofNat {n : Nat} (h : n.isValidChar) : (Char.ofNat n).toNat = n := by
  unfold Char.ofNat
  rw [dif_pos h]
  rfl

theorem digitChar_toNat {d : Nat} (h : d ≤ 9) : (digitChar d).toNat = 48 + d :=
  char_toNat_ofNat (Or.inl (by omega))

theorem natToCharsFuel_digits :
    ∀ (fuel n : Nat), n < fuel → ∀ c ∈ natToCharsFuel fuel n, 48 ≤ c.toNat ∧ c.toNat ≤ 57
  | 0, n, h => absurd h (Nat.not_lt_zero n)
  | fuel + 1, n, h => by
    unfold natToCharsFuel
    split
    · intro c hc
      rw [List.mem_singleton.mp hc, digitChar_toNat (by omega)]
      omega
    · intro c hc
      rcases List.mem_append.mp hc with hc | hc
      · exact natToCharsFuel_digits fuel (n / 10)
          (by omega) c hc
      · rw [List.mem_singleton.mp hc, digitChar_toNat (show n % 10 ≤ 9 by omega)]
        omega

theorem natToChars_digits (n : Nat) : ∀ c ∈ natToChars n, 48 ≤ c.toNat ∧ c.toNat ≤ 57 :=
  natToCharsFuel_digits (n + 1) n (Nat.lt_succ_self n)

theorem natToChars_ne_nil (n : Nat) : natToChars n ≠ [] := by
  unfold natToChars natToCharsFuel
  split <;> simp

theorem char_ne_of_toNat_ne {c d : Char} (h : c.toNat ≠ d.toNat) : c ≠ d :=
  fun he => h (congrArg Char.toNat he)

theorem digit_not_comma {c : Char} (h : 48 ≤ c.toNat ∧ c.toNat ≤ 57) : c ≠ ',' := by
  intro he
  rw [he] at h
  exact absurd h (by decide)

theorem digit_not_newline {c : Char} (h : 48 ≤ c.toNat ∧ c.toNat ≤ 57) : c ≠ '\n' := by
  intro he
  rw [he] at h
  exact absurd h (by decide)

theorem digit_not_ws {c : Char} (h : 48 ≤ c.toNat ∧ c.toNat ≤ 57) :
    isRustWhitespace c = false := by
  unfold isRustWhitespace
  simp only [Bool.or_eq_false_iff, Bool.and_eq_false_iff, decide_eq_false_iff_not]
  omega

theorem foldl_natToCharsFuel :
    ∀ (fuel n : Nat), n < fuel → ∀ a : Nat,
      (natToCharsFuel fuel n).foldl (fun a c => a * 10 + (c.toNat - 48)) a =
        a * 10 ^ (natToCharsFuel fuel n).length + n
  | 0, n, h => absurd h (Nat.not_lt_zero n)
  | fuel + 1, n, h => by
    intro a
    unfold natToCharsFuel
    split
    · simp only [List.foldl_cons, List.foldl_nil, List.length_singleton, pow_one]
      rw [digitChar_toNat (by omega)]
      omega
    · rw [List.foldl_append, foldl_natToCharsFuel fuel (n / 10) (by omega),
        List.length_append, List.length_singleton]
      simp only [List.foldl_cons, List.foldl_nil]
      rw [digitChar_toNat (show n % 10 ≤ 9 by omega)]
      have hd : 48 + n % 10 - 48 = n % 10 := by omega
      rw [hd, pow_succ]
      have := Nat.div_add_mod n 10
      ring_nf
      omega

/-- Folding the decimal digits of `n` accumulates `n` on top of the previous
accumulator shifted by the number of digits. -/
theorem foldl_natToChars (n : Nat) : ∀ a : Nat,
    (natToChars n).foldl (fun a c => a * 10 + (c.toNat - 48)) a =
      a * 10 ^ (natToChars n).length + n :=
  foldl_natToCharsFuel (n + 1) n (Nat.lt_succ_self n)

theorem parseU32_natToChars {n : Nat} (h : n < u32Mod) :
    parseU32 (natToChars n) = some n := by
  have hd := natToChars_digits n
  have hne := natToChars_ne_nil n
  have hhead : ¬ (natToChars n).head? = some '+' := by
    rcases hl : natToChars n with _ | ⟨c, rest⟩
    · exact absurd hl hne
    · have hc := hd c (by rw [hl]; exact List.mem_cons_self _ _)
      simp only [List.head?_cons, Option.some.injEq]
      intro he
      rw [he] at hc
      exact absurd hc (by decide)
  have hall : (natToChars n).all isAsciiDigit = true := by
    rw [List.all_eq_true]
    intro c hc
    have := hd c hc
    simp only [isAsciiDigit, Bool.and_eq_true, decide_eq_true_eq]
    omega
  have hval : (natToChars n).foldl (fun a c => a * 10 + (c.toNat - 48)) 0 = n := by
    rw [foldl_natToChars n 0]
    omega
  unfold parseU32 parseU32digits
  rw [if_neg hhead, if_pos ⟨hne, hall⟩, hval, if_pos h]


theorem next_id_update_desc (t : TodoList) (d : String) :
    (t.update_todo_item_description d).1.next_id = t.next_id := rfl

theorem next_id_update_id (t : TodoList) (i : Nat) :
    (t.update_todo_item_id i).1.next_id = t.next_id := rfl

theorem next_id_remove_desc (t : TodoList) (d : String) :
    (t.remove_by_description d).1.next_id = t.next_id := rfl

theorem next_id_remove_id (t : TodoList) (i : Nat) :
    (t.remove_by_id i).1.next_id = t.next_id := by
  unfold TodoList.remove_by_id
  rcases findKeyById i t.list with _ | k <;> rfl

/-- Trace invariant: along any run, `next_id` is the number of logged
(successfully inserted) ids reduced mod `2^32`, and the log is the initial
segment of the naturals, each reduced mod `2^32`. -/
theorem runFrom_inv (ops : List Op) : ∀ (t : TodoList) (L : List Nat),
    t.next_id = L.length % u32Mod →
    L = (List.range L.length).map (· % u32Mod) →
    (runFrom t L ops).1.next_id = (runFrom t L ops).2.length % u32Mod ∧
    (runFrom t L ops).2 = (List.range (runFrom t L ops).2.length).map (· % u32Mod) := by
  induction ops with
  | nil => exact fun t L h1 h2 => ⟨h1, h2⟩
  | cons op ops ih =>
    intro t L h1 h2
    match op with
    | .add d =>
      rcases h : lookupKey (toAsciiLower d) t.list with _ | v
      · have hstep := insert_fresh h
        simp only [runFrom, stepOp, hstep]
        refine ih _ (L ++ [t.next_id]) ?_ ?_
        · simp only [List.length_append, List.length_singleton, h1, Nat.mod_add_mod]
        · rw [List.length_append, List.length_singleton, List.range_succ, List.map_append,
            ← h2, h1]
          rfl
      · have hstep := insert_occupied h
        simp only [runFrom, stepOp, hstep]
        exact ih t L h1 h2
    | .rmDesc d =>
      simp only [runFrom, stepOp]
      exact ih _ L (by rw [next_id_remove_desc, h1]) h2
    | .rmId i =>
      simp only [runFrom, stepOp]
      exact ih _ L (by rw [next_id_remove_id, h1]) h2
    | .updDesc d =>
      simp only [runFrom, stepOp]
      exact ih _ L (by rw [next_id_update_desc, h1]) h2
    | .updId i =>
      simp only [runFrom, stepOp]
      exact ih _ L (by rw [next_id_update_id, h1]) h2

/-- C5: `next_id` starts at 0 in a newly built collection; running any trace
of operations from the empty collection (with fewer than `2^32` successful
inserts), the logged id of the k-th successful insert is exactly k — the
number of prior successful inserts — so ids are never reused even after
removals, and `next_id` always equals the number of successful inserts so
far (it is untouched by failed inserts, removes and updates, which add
nothing to the log). -/
theorem c5_next_id_counts_inserts (ops : List Op)
    (h : (runLog ops).2.length < u32Mod) :
    TodoList.build.next_id = 0 ∧
    (runLog ops).2 = List.range (runLog ops).2.length ∧
    (runLog ops).1.next_id = (runLog ops).2.length ∧
    (runLog ops).2.Nodup := by
  obtain ⟨h1, h2⟩ := runFrom_inv ops TodoList.build [] rfl rfl
  have hmap : (List.range (runLog ops).2.length).map (· % u32Mod) =
      List.range (runLog ops).2.length := by
    apply List.map_congr_left ?_ |>.trans (List.map_id _)
    intro k hk
    exact Nat.mod_eq_of_lt (lt_trans (List.mem_range.mp hk) h)
  have hL : (runLog ops).2 = List.range (runLog ops).2.length := by
    unfold runLog at hmap ⊢
    exact h2.trans hmap
  refine ⟨rfl, hL, ?_, ?_⟩
  · unfold runLog at h ⊢
    rw [h1, Nat.mod_eq_of_lt h]
  · rw [hL]
    exact List.nodup_range _

/-- C5 witness: a concrete trace — insert, duplicate insert, remove, insert —
assigns ids 0 and 1 and ends with `next_id = 2`. -/
theorem c5_witness :
    (runLog [.add "a", .add "A", .rmId 0, .add "b"]).2.length < u32Mod ∧
    (TodoList.build.next_id = 0 ∧
     (runLog [.add "a", .add "A", .rmId 0, .add "b"]).2 =
       List.range (runLog [.add "a", .add "A", .rmId 0, .add "b"]).2.length ∧
     (runLog [.add "a", .add "A", .rmId 0, .add "b"]).1.next_id =
       (runLog [.add "a", .add "A", .rmId 0, .add "b"]).2.length ∧
     (runLog [.add "a", .add "A", .rmId 0, .add "b"]).2.Nodup) :=
  ⟨by decide, c5_next_id_counts_inserts [.add "a", .add "A", .rmId 0, .add "b"] (by decide)⟩

/-! ### Line-splitting lemmas -/

theorem splitChar_cons (c x : Char) (xs : List Char) :
    splitChar c (x :: xs) =
      if x = c then [] :: splitChar c xs
      else
        match splitChar c xs with
        | [] => [[x]]
        | y :: ys => (x :: y) :: ys := rfl

theorem splitChar_not_mem {c : Char} : ∀ {l : List Char}, c ∉ l → splitChar c l = [l]
  | [], _ => rfl
  | x :: xs, h => by
    have hx : ¬ x = c := fun he => h (he ▸ List.mem_cons_self x xs)
    have ih := splitChar_not_mem (l := xs) (fun hm => h (List.mem_cons_of_mem x hm))
    rw [splitChar_cons, if_neg hx, ih]

theorem splitChar_cons_append {c : Char} {b : List Char} :
    ∀ {a : List Char}, c ∉ a → splitChar c (a ++ c :: b) = a :: splitChar c b
  | [], _ => by
    rw [List.nil_append, splitChar_cons, if_pos rfl]
  | x :: xs, h => by
    have hx : ¬ x = c := fun he => h (he ▸ List.mem_cons_self x xs)
    have ih := splitChar_cons_append (b := b) (a := xs)
      (fun hm => h (List.mem_cons_of_mem x hm))
    rw [List.cons_append, splitChar_cons, if_neg hx, ih]

theorem getLast?_append_right : ∀ (a b : List Char), b ≠ [] → (a ++ b).getLast? = b.getLast?
  | [], _, _ => rfl
  | x :: xs, b, h => by
    have ih := getLast?_append_right xs b h
    rw [List.cons_append]
    rcases hxb : xs ++ b with _ | ⟨y, ys⟩
    · rcases List.append_eq_nil.mp hxb with ⟨_, hb⟩
      exact absurd hb h
    · rw [hxb] at ih
      rw [List.getLast?_cons_cons]
      exact ih

theorem stripCR_of_getLast {l : List Char} (h : ¬ l.getLast? = some '\r') :
    stripCR l = l := by
  unfold stripCR
  rw [if_neg h]

/-- The raw characters of a CSV record. -/
theorem elem_in_csv_data (it : TodoItem) :
    (TodoItem.elem_in_csv it).data =
      natToChars it.id ++ ',' :: it.description.data ++
        ',' :: (if it.done then "true" else "false").data := rfl

theorem comma_not_in_natToChars (n : Nat) : ',' ∉ natToChars n := by
  intro h
  exact absurd (natToChars_digits n ',' h) (by decide)

theorem newline_not_in_natToChars (n : Nat) : '\n' ∉ natToChars n := by
  intro h
  exact absurd (natToChars_digits n '\n' h) (by decide)

theorem row_no_newline {it : TodoItem} (h : '\n' ∉ it.description.data) :
    '\n' ∉ (TodoItem.elem_in_csv it).data := by
  rw [elem_in_csv_data]
  intro hm
  rcases List.mem_append.mp hm with hm | hm
  · rcases List.mem_append.mp hm with hm | hm
    · exact newline_not_in_natToChars it.id hm
    · rcases List.mem_cons.mp hm with hm | hm
      · exact absurd hm (by decide)
      · exact h hm
  · rcases List.mem_cons.mp hm with hm | hm
    · exact absurd hm (by decide)
    · rcases hd : it.done <;> rw [hd] at hm <;> exact absurd hm (by decide)

theorem row_getLast (it : TodoItem) :
    (TodoItem.elem_in_csv it).data.getLast? = some 'e' := by
  rw [elem_in_csv_data]
  rw [getLast?_append_right _ _ (by simp)]
  rw [show (',' :: (if it.done then "true" else "false").data) =
      [','] ++ (if it.done then "true" else "false").data from rfl]
  rw [getLast?_append_right _ _ (by rcases it.done <;> simp)]
  rcases it.done <;> rfl

theorem row_stripCR (it : TodoItem) :
    stripCR (TodoItem.elem_in_csv it).data = (TodoItem.elem_in_csv it).data :=
  stripCR_of_getLast (by rw [row_getLast]; simp)

/-- Splitting the concat of newline-terminated newline-free rows recovers the
rows plus one trailing empty piece. -/
theorem splitChar_joinRows :
    ∀ l : List (String × TodoItem),
      (∀ p ∈ l, '\n' ∉ (TodoItem.elem_in_csv p.2).data) →
      splitChar '\n' (joinRows l) =
        l.map (fun p => (TodoItem.elem_in_csv p.2).data) ++ [[]]
  | [], _ => rfl
  | p :: rest, h => by
    show splitChar '\n' ((TodoItem.elem_in_csv p.2).data ++ '\n' :: joinRows rest) = _
    rw [splitChar_cons_append (h p (List.mem_cons_self _ _)),
      splitChar_joinRows rest (fun q hq => h q (List.mem_cons_of_mem p hq))]
    rfl

/-- Computes `rustLines` from a known `splitChar` decomposition whose pieces
need no carriage-return stripping. -/
theorem rustLines_of_split {l : List Char} {ps : List (List Char)}
    (h : splitChar '\n' l = ps ++ [[]]) (hcr : ∀ p ∈ ps, stripCR p = p) :
    rustLines l = ps := by
  unfold rustLines
  rw [h, List.reverse_append]
  show List.map stripCR ps.reverse.reverse ++ (if ([] : List Char) = [] then [] else _) = ps
  rw [if_pos rfl, List.append_nil, List.reverse_reverse]
  exact (List.map_congr_left hcr).trans (List.map_id ps)

/-- The lines of a saved CSV file: the header followed by the records, one per
item, provided no description contains a line feed. -/
theorem rustLines_save_csv (t : TodoList) (hnl : NoNewlineDescs t) :
    rustLines (TodoList.save_csv t).data =
      TodoItem.header_of_csv.data ::
        t.list.map (fun p => (TodoItem.elem_in_csv p.2).data) := by
  have hrows : ∀ p ∈ t.list, '\n' ∉ (TodoItem.elem_in_csv p.2).data :=
    fun p hp => row_no_newline (hnl p hp)
  apply rustLines_of_split
  · show splitChar '\n' (TodoItem.header_of_csv.data ++ '\n' :: joinRows t.list) = _
    rw [splitChar_cons_append (by decide), splitChar_joinRows t.list hrows]
    rfl
  · intro p hp
    rcases List.mem_cons.mp hp with hp | hp
    · rw [hp]
      decide
    · obtain ⟨q, hq, rfl⟩ := List.mem_map.mp hp
      exact row_stripCR q.2

/-! ### Field-splitting and row-parsing lemmas -/

theorem splitFirst_cons (c x : Char) (xs : List Char) :
    splitFirst c (x :: xs) =
      if x = c then some ([], xs)
      else
        match splitFirst c xs with
        | none => none
        | some p => some (x :: p.1, p.2) := rfl

theorem splitFirst_append_not_mem {c : Char} {b : List Char} :
    ∀ {a : List Char}, c ∉ a → splitFirst c (a ++ c :: b) = some (a, b)
  | [], _ => by
    rw [List.nil_append, splitFirst_cons, if_pos rfl]
  | x :: xs, h => by
    have hx : ¬ x = c := fun he => h (he ▸ List.mem_cons_self x xs)
    have ih := splitFirst_append_not_mem (b := b) (a := xs)
      (fun hm => h (List.mem_cons_of_mem x hm))
    rw [List.cons_append, splitFirst_cons, if_neg hx, ih]

theorem splitFirst_eq_some_of_mem {c : Char} :
    ∀ {l : List Char}, c ∈ l →
      splitFirst c l =
        some (l.takeWhile (fun x => x ≠ c), (l.dropWhile (fun x => x ≠ c)).tail)
  | [], h => absurd h (List.not_mem_nil c)
  | x :: xs, h => by
    rw [splitFirst_cons, List.takeWhile_cons, List.dropWhile_cons]
    by_cases hx : x = c
    · rw [if_pos hx]
      have : (decide ¬ x = c) = false := by simp [hx]
      rw [this]
      simp
    · have hm : c ∈ xs := by
        rcases List.mem_cons.mp h with he | hm
        · exact absurd he.symm hx
        · exact hm
      have ih := splitFirst_eq_some_of_mem hm
      rw [if_neg hx, ih]
      have : (decide ¬ x = c) = true := by simp [hx]
      rw [this]
      simp

theorem splitFirst_append_left {c : Char} :
    ∀ {a : List Char} {p : List Char × List Char}, splitFirst c a = some p →
      ∀ b, splitFirst c (a ++ b) = some (p.1, p.2 ++ b)
  | [], p, h, _ => by cases h
  | x :: xs, p, h, b => by
    rw [splitFirst_cons] at h
    rw [List.cons_append, splitFirst_cons]
    by_cases hx : x = c
    · rw [if_pos hx] at h
      rw [if_pos hx, ← Option.some.inj h]
    · rw [if_neg hx] at h
      rw [if_neg hx]
      rcases hq : splitFirst c xs with _ | q
      · rw [hq] at h
        cases h
      · rw [hq] at h
        rw [splitFirst_append_left hq b, ← Option.some.inj h]

theorem splitnChar_two (c : Char) (l : List Char) :
    splitnChar 2 c l =
      match splitFirst c l with
      | none => [l]
      | some p => [p.1, p.2] := rfl

theorem splitnChar_three (c : Char) (l : List Char) :
    splitnChar 3 c l =
      match splitFirst c l with
      | none => [l]
      | some p => p.1 :: splitnChar 2 c p.2 := rfl

theorem dropWhile_eq_self_of_all {p : Char → Bool} :
    ∀ {l : List Char}, (∀ c ∈ l, p c = false) → l.dropWhile p = l
  | [], _ => rfl
  | x :: xs, h => by
    rw [List.dropWhile_cons, h x (List.mem_cons_self _ _)]
    simp

theorem takeWhile_eq_self_of_all {p : Char → Bool} :
    ∀ {l : List Char}, (∀ c ∈ l, p c = true) → l.takeWhile p = l
  | [], _ => rfl
  | x :: xs, h => by
    rw [List.takeWhile_cons, h x (List.mem_cons_self _ _)]
    simp only [if_true]
    rw [takeWhile_eq_self_of_all (fun c hc => h c (List.mem_cons_of_mem x hc))]

theorem rustTrim_digits {l : List Char} (h : ∀ c ∈ l, 48 ≤ c.toNat ∧ c.toNat ≤ 57) :
    rustTrim l = l := by
  unfold rustTrim
  rw [dropWhile_eq_self_of_all (fun c hc => digit_not_ws (h c hc)),
    dropWhile_eq_self_of_all (fun c hc => digit_not_ws (h c (List.mem_reverse.mp hc))),
    List.reverse_reverse]

theorem decide_ne_true_of_comma {l : List Char} (h : ',' ∈ l) :
    decide (l = "true".data) = false := by
  rw [decide_eq_false_iff_not]
  intro he
  rw [he] at h
  exact absurd h (by decide)

theorem decide_boolData (b : Bool) :
    decide ((if b then "true" else "false").data = "true".data) = b := by
  cases b <;> rfl

/-- What one emitted record parses back to: the id is recovered exactly; the
description and the key are the original description truncated at its first
comma; the `done` flag is recovered when the description has no comma and
degrades to `false` otherwise. -/
theorem parseCsvLine_row (it : TodoItem) (hid : it.id < u32Mod) :
    parseCsvLine (TodoItem.elem_in_csv it).data =
      some (⟨it.description.data.takeWhile (fun x => x ≠ ',')⟩,
            ⟨it.id, ⟨it.description.data.takeWhile (fun x => x ≠ ',')⟩,
             if ',' ∈ it.description.data then false else it.done⟩) := by
  have hrow : (TodoItem.elem_in_csv it).data =
      natToChars it.id ++
        ',' :: (it.description.data ++ ',' :: (if it.done then "true" else "false").data) := by
    rw [elem_in_csv_data, List.append_assoc, List.cons_append]
  have hsplit1 := splitFirst_append_not_mem
    (b := it.description.data ++ ',' :: (if it.done then "true" else "false").data)
    (comma_not_in_natToChars it.id)
  have htrim := rustTrim_digits (natToChars_digits it.id)
  by_cases hmem : ',' ∈ it.description.data
  · have hdesc := splitFirst_eq_some_of_mem hmem
    have hsplit2 := splitFirst_append_left hdesc
      (',' :: (if it.done then "true" else "false").data)
    have hrest : ',' ∈ (it.description.data.dropWhile (fun x => decide (x ≠ ','))).tail ++
        ',' :: (if it.done then "true" else "false").data :=
      List.mem_append.mpr (Or.inr (List.mem_cons_self _ _))
    have hv3 : splitnChar 3 ',' (TodoItem.elem_in_csv it).data =
        [natToChars it.id,
         it.description.data.takeWhile (fun x => decide (x ≠ ',')),
         (it.description.data.dropWhile (fun x => decide (x ≠ ','))).tail ++
           ',' :: (if it.done then "true" else "false").data] := by
      rw [hrow, splitnChar_three, hsplit1]
      show natToChars it.id :: splitnChar 2 ',' _ = _
      rw [splitnChar_two, hsplit2]
    simp only [parseCsvLine, hv3, htrim, parseU32_natToChars hid,
      decide_ne_true_of_comma hrest, if_pos hmem]
  · have hsplit2 := splitFirst_append_not_mem
      (b := (if it.done then "true" else "false").data) (a := it.description.data) hmem
    have htake : it.description.data.takeWhile (fun x => decide (x ≠ ',')) =
        it.description.data :=
      takeWhile_eq_self_of_all
        (fun c hc => by
          rw [decide_eq_true_iff]
          exact fun he => hmem (he ▸ hc))
    have hv3 : splitnChar 3 ',' (TodoItem.elem_in_csv it).data =
        [natToChars it.id, it.description.data,
         (if it.done then "true" else "false").data] := by
      rw [hrow, splitnChar_three, hsplit1]
      show natToChars it.id :: splitnChar 2 ',' _ = _
      rw [splitnChar_two, hsplit2]
    simp only [parseCsvLine, hv3, htrim, parseU32_natToChars hid, if_neg hmem, htake]
    cases it.done <;> rfl

theorem parseRows_map (l : List (String × TodoItem))
    (hid : ∀ p ∈ l, p.2.id < u32Mod) :
    parseRows (l.map fun p => (TodoItem.elem_in_csv p.2).data) =
      some (l.map truncItem) := by
  induction l with
  | nil => rfl
  | cons p rest ih =>
    have hp := parseCsvLine_row p.2 (hid p (List.mem_cons_self _ _))
    have hr := ih (fun q hq => hid q (List.mem_cons_of_mem p hq))
    simp only [List.map_cons, parseRows, hp, hr]
    rfl

/-- `read_csv` applied to a saved collection (line-feed–free descriptions):
the raw computation, before any structural hypotheses. -/
theorem read_csv_save_csv (t : TodoList) (hnl : NoNewlineDescs t)
    (hid : ∀ p ∈ t.list, p.2.id < u32Mod) :
    TodoList.read_csv t.save_csv =
      some ⟨(t.list.map truncItem).foldl (fun acc kv => hmInsert kv.1 kv.2 acc) [],
            ((t.list.map truncItem).foldl
                (fun m kv => if m < kv.2.id then kv.2.id else m) 0 + 1) % u32Mod⟩ := by
  simp only [TodoList.read_csv, rustLines_save_csv t hnl, List.drop_one, List.tail_cons,
    parseRows_map t.list hid]

theorem hmInsert_fresh {k : String} {v : TodoItem} :
    ∀ {l : List (String × TodoItem)}, k ∉ l.map Prod.fst → hmInsert k v l = l ++ [(k, v)]
  | [], _ => rfl
  | (k', v') :: rest, h => by
    have hk : ¬ k' = k := fun he => h (by rw [he]; exact List.mem_cons_self _ _)
    have ih := hmInsert_fresh (v := v) (l := rest)
      (fun hm => h (List.mem_cons_of_mem _ hm))
    show hmInsert k v ((k', v') :: rest) = _
    unfold hmInsert
    rw [if_neg hk, ih]
    rfl

theorem foldl_hmInsert_fresh :
    ∀ (rows acc : List (String × TodoItem)),
      (rows.map Prod.fst).Nodup →
      (∀ k ∈ rows.map Prod.fst, k ∉ acc.map Prod.fst) →
      rows.foldl (fun acc kv => hmInsert kv.1 kv.2 acc) acc = acc ++ rows
  | [], acc, _, _ => by simp
  | r :: rest, acc, hnd, hdisj => by
    have hk : r.1 ∉ acc.map Prod.fst :=
      hdisj r.1 (by simp)
    have hnd' : (rest.map Prod.fst).Nodup := by
      rw [List.map_cons] at hnd
      exact hnd.of_cons
    have hhead : r.1 ∉ rest.map Prod.fst := by
      rw [List.map_cons] at hnd
      exact (List.nodup_cons.mp hnd).1
    have hdisj' : ∀ k ∈ rest.map Prod.fst, k ∉ (acc ++ [r]).map Prod.fst := by
      intro k hkm
      rw [List.map_append, List.mem_append]
      rintro (hin | hin)
      · exact hdisj k (List.mem_cons_of_mem _ hkm) hin
      · rcases List.mem_singleton.mp (by simpa using hin) with he
        exact hhead (he ▸ hkm)
    show (rest.foldl (fun acc kv => hmInsert kv.1 kv.2 acc) (hmInsert r.1 r.2 acc)) = _
    rw [hmInsert_fresh hk]
    rw [foldl_hmInsert_fresh rest (acc ++ [(r.1, r.2)]) hnd' hdisj']
    simp

theorem foldl_idMax_lt {k : Nat} :
    ∀ {l : List (String × TodoItem)} {a : Nat}, a < k → (∀ p ∈ l, p.2.id < k) →
      l.foldl (fun m p => if m < p.2.id then p.2.id else m) a < k
  | [], _, ha, _ => ha
  | p :: rest, a, ha, h => by
    show rest.foldl _ (if a < p.2.id then p.2.id else a) < k
    refine foldl_idMax_lt ?_ (fun q hq => h q (List.mem_cons_of_mem p hq))
    split
    · exact h p (List.mem_cons_self _ _)
    · exact ha

theorem if_lt_eq_max (m i : Nat) : (if m < i then i else m) = max m i := by
  by_cases h : m < i
  · rw [if_pos h, Nat.max_eq_right (Nat.le_of_lt h)]
  · rw [if_neg h, Nat.max_eq_left (Nat.le_of_not_lt h)]

theorem foldl_max_eq_foldr : ∀ (l : List Nat) (a : Nat),
    l.foldl max a = max a (l.foldr max 0)
  | [], a => by simp
  | x :: xs, a => by
    rw [List.foldl_cons, foldl_max_eq_foldr xs (max a x), List.foldr_cons]
    rw [Nat.max_assoc]

/-- The `id_max` fold of `read_csv` computes the maximum id (0 when empty). -/
theorem idMaxOf_eq_foldr (t : TodoList) :
    idMaxOf t = (t.list.map fun p => p.2.id).foldr max 0 := by
  unfold idMaxOf
  have h1 : (fun (m : Nat) (p : String × TodoItem) => if m < p.2.id then p.2.id else m) =
      fun m p => max m p.2.id := by
    funext m p
    exact if_lt_eq_max m p.2.id
  rw [h1, ← List.foldl_map (fun p : String × TodoItem => p.2.id) max, foldl_max_eq_foldr]
  simp

/-! ### Claim C7: CSV round-trip -/

theorem map_truncItem_of_no_comma (t : TodoList) (hnc : NoCommaDescs t) :
    t.list.map truncItem = t.list.map fun p => (p.2.description, p.2) := by
  apply List.map_congr_left
  intro p hp
  unfold truncItem
  have htake : p.2.description.data.takeWhile (fun x => decide (x ≠ ',')) =
      p.2.description.data :=
    takeWhile_eq_self_of_all
      (fun c hc => by
        rw [decide_eq_true_iff]
        exact fun he => hnc p hp (he ▸ hc))
  rw [htake, if_neg (hnc p hp)]

/-- C7 (amended): for every collection whose descriptions are pairwise
distinct and contain neither a comma nor a line feed, and whose ids are below
`2^32 - 1`, deserializing the serialized CSV succeeds and reproduces exactly
the original (id, description, done) triples, with the resulting `next_id`
equal to `1 + max(id)` (the maximum over the triples, taken as 0 when there
are none). -/
theorem c7_csv_roundtrip (t : TodoList)
    (hnl : NoNewlineDescs t) (hnc : NoCommaDescs t) (hdn : DescsNodup t)
    (hid : ∀ p ∈ t.list, p.2.id + 1 < u32Mod) :
    (TodoList.read_csv t.save_csv).map triples = some (triples t) ∧
    (TodoList.read_csv t.save_csv).map TodoList.next_id =
      some (1 + (t.list.map fun p => p.2.id).foldr max 0) := by
  have hid' : ∀ p ∈ t.list, p.2.id < u32Mod := fun p hp => by
    have := hid p hp
    omega
  have hmain := read_csv_save_csv t hnl hid'
  rw [map_truncItem_of_no_comma t hnc] at hmain
  have hkeys : ((t.list.map fun p => (p.2.description, p.2)).map Prod.fst).Nodup := by
    rw [List.map_map]
    exact hdn
  have hfold := foldl_hmInsert_fresh (t.list.map fun p => (p.2.description, p.2)) []
    hkeys (by intro k _ hin; simp at hin)
  rw [List.nil_append] at hfold
  rw [hfold] at hmain
  have hmax : ((t.list.map fun p => (p.2.description, p.2)).foldl
      (fun m kv => if m < kv.2.id then kv.2.id else m) 0) = idMaxOf t := by
    rw [List.foldl_map]
    rfl
  rw [hmax] at hmain
  have hbound : idMaxOf t + 1 < u32Mod := by
    have := foldl_idMax_lt (k := u32Mod - 1) (l := t.list) (a := 0)
      (by decide)
      (fun p hp => by
        have := hid p hp
        omega)
    unfold idMaxOf
    omega
  rw [Nat.mod_eq_of_lt hbound] at hmain
  rw [hmain]
  constructor
  · show some (triples ⟨t.list.map fun p => (p.2.description, p.2), idMaxOf t + 1⟩) =
      some (triples t)
    unfold triples
    rw [List.map_map]
    rfl
  · show some (idMaxOf t + 1) = _
    rw [idMaxOf_eq_foldr, Nat.add_comm]

/-- C7 counterexample: a collection holding the single description `"a,b"`
(reachable by one insert) does not round-trip through CSV — the embedded comma
shifts the fields, so the parsed triples differ from the original ones. -/
theorem c7_counterexample :
    ¬ ((TodoList.read_csv (TodoList.build.insert "a,b").2.save_csv).map triples =
        some (triples (TodoList.build.insert "a,b").2)) := by
  intro hcontra
  have h1 : (TodoList.read_csv (TodoList.build.insert "a,b").2.save_csv).map triples =
      some [(0, "a", false)] := rfl
  have h2 : triples (TodoList.build.insert "a,b").2 = [(0, "a,b", false)] := rfl
  rw [h1, h2] at hcontra
  exact absurd (Option.some.inj hcontra) (by decide)

/-- C7 witness: the amended round-trip at the one-item collection holding
`"milk"`. -/
theorem c7_witness :
    (TodoList.read_csv (TodoList.build.insert "milk").2.save_csv).map triples =
      some (triples (TodoList.build.insert "milk").2) ∧
    (TodoList.read_csv (TodoList.build.insert "milk").2.save_csv).map TodoList.next_id =
      some (1 + ((TodoList.build.insert "milk").2.list.map fun p => p.2.id).foldr max 0) :=
  c7_csv_roundtrip (TodoList.build.insert "milk").2
    (by unfold NoNewlineDescs; decide) (by unfold NoCommaDescs; decide)
    (by unfold DescsNodup; decide) (by decide)

/-! ### Claim C10: the `done` field parses as an exact comparison with `true` -/

theorem rustLines_of_split_unterminated {l last : List Char} {ps : List (List Char)}
    (h : splitChar '\n' l = ps ++ [last]) (hlast : last ≠ [])
    (hcr : ∀ p ∈ ps, stripCR p = p) :
    rustLines l = ps ++ [last] := by
  unfold rustLines
  rw [h, List.reverse_append]
  show List.map stripCR ps.reverse.reverse ++ (if last = [] then [] else [last]) = ps ++ [last]
  rw [if_neg hlast, List.reverse_reverse]
  rw [(List.map_congr_left hcr).trans (List.map_id ps)]

/-- C10: in a well-formed CSV row `0,x,<dn>` (line-feed–free `dn`),
deserialization always succeeds — the `done` field is never reported as
malformed — and the resulting flag is `true` exactly when the field is the
literal string `true`, every other value silently becoming `false`. -/
theorem c10_done_exact_true (dn : List Char) (h : '\n' ∉ dn) :
    TodoList.read_csv ⟨"Id,Description,Done\n0,x,".data ++ dn⟩ =
      some ⟨[("x", ⟨0, "x", decide (dn = "true".data)⟩)], 1⟩ := by
  have hdata : ("Id,Description,Done\n0,x,".data ++ dn) =
      "Id,Description,Done".data ++ '\n' :: (['0'] ++ ',' :: (['x'] ++ ',' :: dn)) := rfl
  have hno : '\n' ∉ (['0'] ++ ',' :: (['x'] ++ ',' :: dn)) := by
    intro hm
    rcases List.mem_append.mp hm with hm | hm
    · exact absurd hm (by decide)
    · rcases List.mem_cons.mp hm with hm | hm
      · exact absurd hm (by decide)
      · rcases List.mem_append.mp hm with hm | hm
        · exact absurd hm (by decide)
        · rcases List.mem_cons.mp hm with hm | hm
          · exact absurd hm (by decide)
          · exact h hm
  have hsplit : splitChar '\n' ("Id,Description,Done\n0,x,".data ++ dn) =
      ["Id,Description,Done".data] ++ [['0'] ++ ',' :: (['x'] ++ ',' :: dn)] := by
    rw [hdata, splitChar_cons_append (by decide), splitChar_not_mem hno]
    rfl
  have hlines : rustLines ("Id,Description,Done\n0,x,".data ++ dn) =
      ["Id,Description,Done".data, ['0'] ++ ',' :: (['x'] ++ ',' :: dn)] :=
    rustLines_of_split_unterminated hsplit
      (by simp)
      (by
        intro p hp
        rw [List.mem_singleton.mp hp]
        decide)
  have hv3 : splitnChar 3 ',' (['0'] ++ ',' :: (['x'] ++ ',' :: dn)) =
      [['0'], ['x'], dn] := by
    rw [splitnChar_three, splitFirst_append_not_mem (by decide)]
    show (['0'] : List Char) :: splitnChar 2 ',' _ = _
    rw [splitnChar_two, splitFirst_append_not_mem (by decide)]
  have hline : parseCsvLine (['0'] ++ ',' :: (['x'] ++ ',' :: dn)) =
      some ("x", ⟨0, "x", decide (dn = "true".data)⟩) := by
    simp only [parseCsvLine, hv3]
    rfl
  unfold TodoList.read_csv
  rw [show (String.mk ("Id,Description,Done\n0,x,".data ++ dn)).data =
    "Id,Description,Done\n0,x,".data ++ dn from rfl]
  rw [hlines, List.drop_one, List.tail_cons]
  simp only [parseRows, hline]
  rfl

/-- C10 witness: the field `True` (capitalized) parses as `done = false`
rather than a malformed-line failure, and `true` parses as `done = true`. -/
theorem c10_witness :
    TodoList.read_csv ⟨"Id,Description,Done\n0,x,".data ++ "True".data⟩ =
      some ⟨[("x", ⟨0, "x", false⟩)], 1⟩ ∧
    TodoList.read_csv ⟨"Id,Description,Done\n0,x,".data ++ "true".data⟩ =
      some ⟨[("x", ⟨0, "x", true⟩)], 1⟩ :=
  ⟨c10_done_exact_true "True".data (by decide),
   c10_done_exact_true "true".data (by decide)⟩

/-! ### Claim C8: JSON round-trip -/

theorem decodeU32_encode {n : Nat} (h : n < u32Mod) :
    decodeU32 (.num (n : Int)) = some n := by
  show (if 0 ≤ (n : Int) ∧ (n : Int) < (u32Mod : Int) then some ((n : Int)).toNat else none) =
    some n
  rw [if_pos ⟨Int.natCast_nonneg n, by exact_mod_cast h⟩, Int.toNat_natCast]

theorem decodeTodoItem_encode (it : TodoItem) (h : it.id < u32Mod) :
    decodeTodoItem (encodeTodoItem it) = some it := by
  show ((decodeU32 (.num (it.id : Int))).bind fun n =>
    decodeTodoItemFields [("description", .str it.description), ("done", .bool it.done)]
      (some n) none none) = some it
  rw [decodeU32_encode h]
  rfl

theorem decodeItemMap_encode :
    ∀ (l acc : List (String × TodoItem)), (∀ p ∈ l, p.2.id < u32Mod) →
      decodeItemMap (l.map fun p => (p.1, encodeTodoItem p.2)) acc =
        some (l.foldl (fun a p => hmInsert p.1 p.2 a) acc)
  | [], _, _ => rfl
  | p :: rest, acc, h => by
    show ((decodeTodoItem (encodeTodoItem p.2)).bind fun it =>
      decodeItemMap (rest.map fun q : String × TodoItem => (q.1, encodeTodoItem q.2))
        (hmInsert p.1 it acc)) = _
    rw [decodeTodoItem_encode p.2 (h p (List.mem_cons_self _ _))]
    exact decodeItemMap_encode rest (hmInsert p.1 p.2 acc)
      (fun q hq => h q (List.mem_cons_of_mem p hq))

theorem decodeTodoList_encode (t : TodoList) (h : Wf t) :
    decodeTodoList t.to_json = some t := by
  obtain ⟨hkeys, hnext, hids⟩ := h
  have hmap := decodeItemMap_encode t.list [] hids
  have hfold := foldl_hmInsert_fresh t.list [] hkeys (by intro k _ hin; simp at hin)
  rw [List.nil_append] at hfold
  rw [hfold] at hmap
  show ((decodeItemMap
      (t.list.map fun p : String × TodoItem => (p.1, encodeTodoItem p.2)) []).bind
    fun m' => decodeTodoListFields [("next_id", .num (t.next_id : Int))] (some m') none) =
      some t
  rw [hmap, Option.some_bind]
  rw [show decodeTodoListFields [("next_id", Json.num (t.next_id : Int))] (some t.list) none =
      (decodeU32 (Json.num (t.next_id : Int))).bind fun n' =>
        decodeTodoListFields [] (some t.list) (some n') from rfl]
  rw [decodeU32_encode hnext, Option.some_bind]
  rfl

/-- C8: for every well-formed collection (distinct map keys, `u32`-ranged
numbers), deserializing the JSON value produced by `to_json` — and hence by
`to_json_pretty`, which renders the same value with different whitespace —
through the library's `read_json` yields an equal collection: same items under
the same keys, same `next_id`. -/
theorem c8_json_roundtrip (t : TodoList) (h : Wf t) :
    TodoList.read_json (.ok t.to_json) = .ok t := by
  show jsonOutcome (decodeTodoList t.to_json) = .ok t
  rw [decodeTodoList_encode t h]
  rfl

/-- C8 witness: the JSON round-trip of the two-item collection built by
inserting `"Milk"` and `"Walk dog"`. -/
theorem c8_witness :
    TodoList.read_json
        (.ok ((TodoList.build.insert "Milk").2.insert "Walk dog").2.to_json) =
      .ok ((TodoList.build.insert "Milk").2.insert "Walk dog").2 :=
  c8_json_roundtrip ((TodoList.build.insert "Milk").2.insert "Walk dog").2
    (by unfold Wf KeysNodup; decide)

/-! ### Claim C9: malformed CSV lines panic instead of returning an error -/

/-- C9: on a data line with fewer than three comma-separated fields the code
indexes `v[2]` out of bounds, and on a non-numeric id field it calls
`unwrap()` on an `Err` — both are Rust panics (modelled as `none`), not a
parse error returned to the caller as the specification requires. -/
theorem c9_malformed_line_panics :
    TodoList.read_csv "Id,Description,Done\nhello" = none ∧
    TodoList.read_csv "Id,Description,Done\nabc,x,true" = none := by
  constructor <;> decide

/-! ### Claim C6: reachable-state invariants — helper lemmas -/

theorem asciiLowerChar_idem (c : Char) :
    asciiLowerChar (asciiLowerChar c) = asciiLowerChar c := by
  by_cases h : 65 ≤ c.toNat ∧ c.toNat ≤ 90
  · have h1 : asciiLowerChar c = Char.ofNat (c.toNat + 32) := by
      unfold asciiLowerChar
      rw [if_pos h]
    have hval : (Char.ofNat (c.toNat + 32)).toNat = c.toNat + 32 :=
      char_toNat_ofNat (Or.inl (by omega))
    rw [h1]
    unfold asciiLowerChar
    rw [if_neg (by rw [hval]; omega)]
  · have h1 : asciiLowerChar c = c := by
      unfold asciiLowerChar
      rw [if_neg h]
    rw [h1, h1]

theorem eq_of_map_eq_self {f : Char → Char} :
    ∀ {l : List Char}, l.map f = l → ∀ c ∈ l, f c = c
  | [], _, c, hc => absurd hc (List.not_mem_nil c)
  | x :: xs, h, c, hc => by
    simp only [List.map_cons] at h
    obtain ⟨h1, h2⟩ := List.cons.inj h
    rcases List.mem_cons.mp hc with he | hc
    · rw [he, h1]
    · exact eq_of_map_eq_self h2 c hc

theorem map_eq_self_of_forall {f : Char → Char} :
    ∀ {l : List Char}, (∀ c ∈ l, f c = c) → l.map f = l
  | [], _ => rfl
  | x :: xs, h => by
    simp only [List.map_cons]
    rw [h x (List.mem_cons_self _ _),
      map_eq_self_of_forall (fun c hc => h c (List.mem_cons_of_mem x hc))]

theorem toAsciiLower_idem (s : String) :
    toAsciiLower (toAsciiLower s) = toAsciiLower s := by
  unfold toAsciiLower
  rw [show (String.mk (s.data.map asciiLowerChar)).data = s.data.map asciiLowerChar from rfl,
    List.map_map]
  apply congrArg String.mk
  calc s.data.map (asciiLowerChar ∘ asciiLowerChar)
      = (s.data.map asciiLowerChar).map asciiLowerChar := by rw [List.map_map]
    _ = s.data.map asciiLowerChar :=
        map_eq_self_of_forall (by
          intro c hc
          obtain ⟨d, _, rfl⟩ := List.mem_map.mp hc
          exact asciiLowerChar_idem d)

/-- The key, id and description of every entry are untouched by a toggle. -/
theorem toggleKey_shape (k : String) :
    ∀ l : List (String × TodoItem),
      ((toggleKey k l).1).map (fun p => (p.1, p.2.id, p.2.description)) =
        l.map (fun p => (p.1, p.2.id, p.2.description))
  | [] => rfl
  | (k', v) :: rest => by
    show ((if k' = k then ((k', ⟨v.id, v.description, !v.done⟩) :: rest, some (!v.done))
      else ((k', v) :: (toggleKey k rest).1, (toggleKey k rest).2)).1).map _ = _
    by_cases h : k' = k
    · rw [if_pos h]
      rfl
    · rw [if_neg h]
      show _ :: ((toggleKey k rest).1).map _ = _
      rw [toggleKey_shape k rest]
      rfl

theorem toggleId_shape (i : Nat) :
    ∀ l : List (String × TodoItem),
      ((toggleId i l).1).map (fun p => (p.1, p.2.id, p.2.description)) =
        l.map (fun p => (p.1, p.2.id, p.2.description))
  | [] => rfl
  | (k', v) :: rest => by
    show ((if v.id = i then ((k', ⟨v.id, v.description, !v.done⟩) :: rest, some (!v.done))
      else ((k', v) :: (toggleId i rest).1, (toggleId i rest).2)).1).map _ = _
    by_cases h : v.id = i
    · rw [if_pos h]
      rfl
    · rw [if_neg h]
      show _ :: ((toggleId i rest).1).map _ = _
      rw [toggleId_shape i rest]
      rfl

theorem removeKey_sublist (k : String) :
    ∀ l : List (String × TodoItem), ((removeKey k l).1).Sublist l
  | [] => List.Sublist.refl []
  | (k', v) :: rest => by
    show ((if k' = k then (rest, some v)
      else ((k', v) :: (removeKey k rest).1, (removeKey k rest).2)).1).Sublist _
    by_cases h : k' = k
    · rw [if_pos h]
      exact List.sublist_cons_self _ _
    · rw [if_neg h]
      exact List.Sublist.cons₂ _ (removeKey_sublist k rest)

theorem mem_hmInsert {kv : String × TodoItem} {k : String} {v : TodoItem} :
    ∀ {l : List (String × TodoItem)}, kv ∈ hmInsert k v l → kv ∈ l ∨ kv = (k, v)
  | [], h => by
    rcases List.mem_singleton.mp h with rfl
    exact Or.inr rfl
  | (k', v') :: rest, h => by
    revert h
    show kv ∈ (if k' = k then (k', v) :: rest else (k', v') :: hmInsert k v rest) → _
    by_cases hk : k' = k
    · rw [if_pos hk]
      intro h
      rcases List.mem_cons.mp h with he | hm
      · rw [hk] at he
        exact Or.inr he
      · exact Or.inl (List.mem_cons_of_mem _ hm)
    · rw [if_neg hk]
      intro h
      rcases List.mem_cons.mp h with he | hm
      · exact Or.inl (he ▸ List.mem_cons_self _ _)
      · rcases mem_hmInsert hm with hm | he
        · exact Or.inl (List.mem_cons_of_mem _ hm)
        · exact Or.inr he

theorem mem_foldl_hmInsert {kv : String × TodoItem} :
    ∀ (rows acc : List (String × TodoItem)),
      kv ∈ rows.foldl (fun a r => hmInsert r.1 r.2 a) acc → kv ∈ acc ∨ kv ∈ rows
  | [], _, h => Or.inl h
  | r :: rest, acc, h => by
    rcases mem_foldl_hmInsert rest (hmInsert r.1 r.2 acc) h with hm | hm
    · rcases mem_hmInsert hm with hm | he
      · exact Or.inl hm
      · exact Or.inr (by rw [he]; exact List.mem_cons_self _ _)
    · exact Or.inr (List.mem_cons_of_mem _ hm)

theorem keys_hmInsert_mem {k : String} {v : TodoItem} :
    ∀ {l : List (String × TodoItem)}, k ∈ l.map Prod.fst →
      (hmInsert k v l).map Prod.fst = l.map Prod.fst
  | [], h => absurd h (by simp)
  | (k', v') :: rest, h => by
    show ((if k' = k then (k', v) :: rest else (k', v') :: hmInsert k v rest)).map Prod.fst = _
    by_cases hk : k' = k
    · rw [if_pos hk]
      rfl
    · rw [if_neg hk]
      have hm : k ∈ rest.map Prod.fst := by
        simp only [List.map_cons, List.mem_cons] at h
        rcases h with he | hm
        · exact absurd he.symm hk
        · exact hm
      show k' :: (hmInsert k v rest).map Prod.fst = k' :: rest.map Prod.fst
      rw [keys_hmInsert_mem hm]

theorem keys_hmInsert_not_mem {k : String} {v : TodoItem} {l : List (String × TodoItem)}
    (h : k ∉ l.map Prod.fst) :
    (hmInsert k v l).map Prod.fst = l.map Prod.fst ++ [k] := by
  rw [hmInsert_fresh h, List.map_append]
  rfl

theorem keysNodup_foldl_hmInsert :
    ∀ (rows acc : List (String × TodoItem)), (acc.map Prod.fst).Nodup →
      ((rows.foldl (fun a r => hmInsert r.1 r.2 a) acc).map Prod.fst).Nodup
  | [], _, h => h
  | r :: rest, acc, h => by
    apply keysNodup_foldl_hmInsert rest
    by_cases hk : r.1 ∈ acc.map Prod.fst
    · rw [keys_hmInsert_mem hk]
      exact h
    · rw [keys_hmInsert_not_mem hk]
      rw [List.nodup_append]
      exact ⟨h, List.nodup_singleton _,
        fun a ha hb => hk ((List.mem_singleton.mp hb) ▸ ha)⟩

theorem ids_nodup_hmInsert {x : String × TodoItem} {R : List Nat} :
    ∀ {l : List (String × TodoItem)},
      (l.map (fun p => p.2.id) ++ x.2.id :: R).Nodup →
      ((hmInsert x.1 x.2 l).map (fun p => p.2.id) ++ R).Nodup
  | [], h => by
    simp only [List.map_nil, List.nil_append] at h
    exact h
  | (k', v') :: rest, h => by
    show (((if k' = x.1 then (k', x.2) :: rest
      else (k', v') :: hmInsert x.1 x.2 rest)).map (fun p => p.2.id) ++ R).Nodup
    by_cases hk : k' = x.1
    · rw [if_pos hk]
      have h2 : ((rest.map fun p => p.2.id) ++ x.2.id :: R).Nodup := by
        simp only [List.map_cons, List.cons_append, List.nodup_cons] at h
        exact h.2
      have hperm : ((rest.map fun p => p.2.id) ++ x.2.id :: R).Perm
          (x.2.id :: ((rest.map fun p => p.2.id) ++ R)) :=
        List.perm_middle
      exact hperm.nodup h2
    · rw [if_neg hk]
      have hh := List.nodup_cons.mp (by
        simpa only [List.map_cons, List.cons_append] using h)
      have ih := ids_nodup_hmInsert (x := x) (R := R) (l := rest) hh.2
      show (v'.id :: ((hmInsert x.1 x.2 rest).map fun p => p.2.id) ++ R).Nodup
      rw [List.cons_append, List.nodup_cons]
      refine ⟨?_, ih⟩
      intro hmem
      rcases List.mem_append.mp hmem with hm | hm
      · obtain ⟨q, hq, hqe⟩ := List.mem_map.mp hm
        rcases mem_hmInsert hq with hq' | hq'
        · exact hh.1 (List.mem_append_left _
            (List.mem_map.mpr ⟨q, hq', hqe⟩))
        · refine hh.1 (List.mem_append_right _ ?_)
          rw [← hqe, hq']
          exact List.mem_cons_self _ _
      · exact hh.1 (List.mem_append_right _ (List.mem_cons_of_mem _ hm))

theorem ids_nodup_foldl :
    ∀ (rows acc : List (String × TodoItem)),
      ((acc.map fun p => p.2.id) ++ rows.map fun p => p.2.id).Nodup →
      (((rows.foldl (fun a r => hmInsert r.1 r.2 a) acc)).map fun p => p.2.id).Nodup
  | [], acc, h => by simpa using h
  | r :: rest, acc, h => by
    apply ids_nodup_foldl rest
    exact ids_nodup_hmInsert (x := r)
      (by simpa only [List.map_cons, List.cons_append] using h)

theorem foldl_idMax_ge : ∀ (l : List (String × TodoItem)) (a : Nat),
    a ≤ l.foldl (fun m q => if m < q.2.id then q.2.id else m) a
  | [], a => le_refl a
  | q :: rest, a => by
    refine le_trans ?_ (foldl_idMax_ge rest (if a < q.2.id then q.2.id else a))
    split
    · exact Nat.le_of_lt (by assumption)
    · exact le_refl a

theorem le_foldl_idMax {p : String × TodoItem} :
    ∀ {l : List (String × TodoItem)} (a : Nat), p ∈ l →
      p.2.id ≤ l.foldl (fun m q => if m < q.2.id then q.2.id else m) a
  | [], _, h => absurd h (List.not_mem_nil p)
  | q :: rest, a, h => by
    rcases List.mem_cons.mp h with he | hm
    · rw [he]
      refine le_trans ?_ (foldl_idMax_ge rest _)
      show q.2.id ≤ if a < q.2.id then q.2.id else a
      split
      · exact le_refl _
      · exact Nat.le_of_not_lt (by assumption)
    · exact le_foldl_idMax (l := rest) (if a < q.2.id then q.2.id else a) hm

theorem mem_of_mem_takeWhile {p : Char → Bool} {c : Char} :
    ∀ {l : List Char}, c ∈ l.takeWhile p → c ∈ l
  | [], h => absurd h (List.not_mem_nil c)
  | x :: xs, h => by
    rw [List.takeWhile_cons] at h
    by_cases hx : p x = true
    · rw [if_pos hx] at h
      rcases List.mem_cons.mp h with he | hm
      · exact he ▸ List.mem_cons_self _ _
      · exact List.mem_cons_of_mem _ (mem_of_mem_takeWhile hm)
    · rw [if_neg hx] at h
      exact absurd h (List.not_mem_nil c)

/-- Transport of the structural invariants along an equality of
(key, id, description) shapes (updates toggle only `done`). -/
theorem aux_transport_shape {l l' : List (String × TodoItem)} {N : Nat}
    (hs : l'.map (fun p => (p.1, p.2.id, p.2.description)) =
      l.map (fun p => (p.1, p.2.id, p.2.description)))
    (h1 : ∀ p ∈ l, p.1 = p.2.description ∧ toAsciiLower p.2.description = p.2.description)
    (h2 : ∀ p ∈ l, p.2.id < N)
    (h3 : (l.map fun p => p.2.id).Nodup) (h4 : (l.map Prod.fst).Nodup) :
    (∀ p ∈ l', p.1 = p.2.description ∧ toAsciiLower p.2.description = p.2.description) ∧
    (∀ p ∈ l', p.2.id < N) ∧ (l'.map fun p => p.2.id).Nodup ∧ (l'.map Prod.fst).Nodup := by
  have hmem : ∀ p ∈ l', ∃ q ∈ l,
      q.1 = p.1 ∧ q.2.id = p.2.id ∧ q.2.description = p.2.description := by
    intro p hp
    have hin : (p.1, p.2.id, p.2.description) ∈
        l.map (fun p => (p.1, p.2.id, p.2.description)) := by
      rw [← hs]
      exact List.mem_map_of_mem _ hp
    obtain ⟨q, hq, hqe⟩ := List.mem_map.mp hin
    obtain ⟨e1, e2, e3⟩ : q.1 = p.1 ∧ q.2.id = p.2.id ∧ q.2.description = p.2.description := by
      simpa using hqe
    exact ⟨q, hq, e1, e2, e3⟩
  have hids : l'.map (fun p => p.2.id) = l.map (fun p => p.2.id) := by
    have hc := congrArg (List.map (fun q : String × Nat × String => q.2.1)) hs
    rw [List.map_map, List.map_map] at hc
    exact hc
  have hkeys : l'.map Prod.fst = l.map Prod.fst := by
    have hc := congrArg (List.map (fun q : String × Nat × String => q.1)) hs
    rw [List.map_map, List.map_map] at hc
    exact hc
  refine ⟨?_, ?_, ?_, ?_⟩
  · intro p hp
    obtain ⟨q, hq, e1, e2, e3⟩ := hmem p hp
    have hh := h1 q hq
    exact ⟨by rw [← e1, ← e3]; exact hh.1, by rw [← e3]; exact hh.2⟩
  · intro p hp
    obtain ⟨q, hq, e1, e2, e3⟩ := hmem p hp
    rw [← e2]
    exact h2 q hq
  · rw [hids]
    exact h3
  · rw [hkeys]
    exact h4

/-- Transport of the structural invariants to a sublist (removals). -/
theorem aux_transport_sublist {l l' : List (String × TodoItem)} {N : Nat}
    (hs : l'.Sublist l)
    (h1 : ∀ p ∈ l, p.1 = p.2.description ∧ toAsciiLower p.2.description = p.2.description)
    (h2 : ∀ p ∈ l, p.2.id < N)
    (h3 : (l.map fun p => p.2.id).Nodup) (h4 : (l.map Prod.fst).Nodup) :
    (∀ p ∈ l', p.1 = p.2.description ∧ toAsciiLower p.2.description = p.2.description) ∧
    (∀ p ∈ l', p.2.id < N) ∧ (l'.map fun p => p.2.id).Nodup ∧ (l'.map Prod.fst).Nodup :=
  ⟨fun p hp => h1 p (hs.subset hp), fun p hp => h2 p (hs.subset hp),
   h3.sublist (hs.map _), h4.sublist (hs.map _)⟩

/-- Inductive invariant of reachable collections (auxiliary form): every key
equals its item's description, which is lowercase-fixed; ids are below
`next_id` and pairwise distinct; keys are pairwise distinct; and `next_id` is
at most one more than the number of inserts performed. -/
theorem reachable_aux {n : Nat} {t : TodoList} (hr : Reachable n t) :
    n + 2 < u32Mod →
    ((∀ p ∈ t.list, p.1 = p.2.description ∧ toAsciiLower p.2.description = p.2.description) ∧
      IdsBelow t ∧ IdsNodup t ∧ KeysNodup t ∧ t.next_id ≤ n + 1) := by
  induction hr with
  | base =>
    exact fun _ => ⟨fun p hp => absurd hp (List.not_mem_nil p),
      fun p hp => absurd hp (List.not_mem_nil p),
      List.nodup_nil, List.nodup_nil, by decide⟩
  | step_insert d hr' ih =>
    rename_i n t
    intro hb
    obtain ⟨h1, h2, h3, h4, h5⟩ := ih (by omega)
    rcases hl : lookupKey (toAsciiLower d) t.list with _ | v
    · have hmod : (t.next_id + 1) % u32Mod = t.next_id + 1 := Nat.mod_eq_of_lt (by omega)
      have ht' : (t.insert d).2 =
          ⟨t.list ++ [(toAsciiLower d, TodoItem.build t.next_id (toAsciiLower d))],
           t.next_id + 1⟩ := by
        rw [insert_fresh hl, hmod]
      rw [ht']
      unfold IdsBelow IdsNodup KeysNodup
      refine ⟨?_, ?_, ?_, ?_, by show t.next_id + 1 ≤ n + 1 + 1; omega⟩
      · intro p hp
        rcases List.mem_append.mp hp with hp | hp
        · exact h1 p hp
        · rw [List.mem_singleton.mp hp]
          exact ⟨rfl, toAsciiLower_idem d⟩
      · intro p hp
        rcases List.mem_append.mp hp with hp | hp
        · exact Nat.lt_trans (h2 p hp) (Nat.lt_succ_self _)
        · rw [List.mem_singleton.mp hp]
          exact Nat.lt_succ_self _
      · show ((t.list ++ [(toAsciiLower d, TodoItem.build t.next_id (toAsciiLower d))]).map
          fun p => p.2.id).Nodup
        rw [List.map_append, List.nodup_append]
        refine ⟨h3, List.nodup_singleton _, ?_⟩
        intro a ha hb'
        have ha' : a = t.next_id := List.mem_singleton.mp hb'
        obtain ⟨q, hq, hqe⟩ := List.mem_map.mp ha
        have := h2 q hq
        omega
      · show ((t.list ++ [(toAsciiLower d, TodoItem.build t.next_id (toAsciiLower d))]).map
          Prod.fst).Nodup
        rw [List.map_append, List.nodup_append]
        refine ⟨h4, List.nodup_singleton _, ?_⟩
        intro a ha hb'
        have ha' : a = toAsciiLower d := List.mem_singleton.mp hb'
        rw [ha'] at ha
        exact (lookupKey_eq_none_iff.mp hl) ha
    · have ht' : (t.insert d).2 = t := by rw [insert_occupied hl]
      rw [ht']
      exact ⟨h1, h2, h3, h4, by omega⟩
  | step_update_desc d hr' ih =>
    rename_i n t
    intro hb
    obtain ⟨h1, h2, h3, h4, h5⟩ := ih hb
    obtain ⟨g1, g2, g3, g4⟩ :=
      aux_transport_shape (toggleKey_shape (toAsciiLower d) t.list) h1 h2 h3 h4
    exact ⟨g1, g2, g3, g4, h5⟩
  | step_update_id i hr' ih =>
    rename_i n t
    intro hb
    obtain ⟨h1, h2, h3, h4, h5⟩ := ih hb
    obtain ⟨g1, g2, g3, g4⟩ := aux_transport_shape (toggleId_shape i t.list) h1 h2 h3 h4
    exact ⟨g1, g2, g3, g4, h5⟩
  | step_remove_desc d hr' ih =>
    rename_i n t
    intro hb
    obtain ⟨h1, h2, h3, h4, h5⟩ := ih hb
    obtain ⟨g1, g2, g3, g4⟩ :=
      aux_transport_sublist (removeKey_sublist (toAsciiLower d) t.list) h1 h2 h3 h4
    exact ⟨g1, g2, g3, g4, h5⟩
  | step_remove_id i hr' ih =>
    rename_i n t
    intro hb
    obtain ⟨h1, h2, h3, h4, h5⟩ := ih hb
    rcases hf : findKeyById i t.list with _ | k
    · have ht' : (t.remove_by_id i).1 = t := by
        unfold TodoList.remove_by_id
        rw [hf]
      rw [ht']
      exact ⟨h1, h2, h3, h4, h5⟩
    · have ht' : (t.remove_by_id i).1 = ⟨(removeKey k t.list).1, t.next_id⟩ := by
        unfold TodoList.remove_by_id
        rw [hf]
      rw [ht']
      obtain ⟨g1, g2, g3, g4⟩ :=
        aux_transport_sublist (removeKey_sublist k t.list) h1 h2 h3 h4
      exact ⟨g1, g2, g3, g4, h5⟩
  | step_csv hr' hnl hcsv ih =>
    rename_i n t t'
    intro hb
    obtain ⟨h1, h2, h3, h4, h5⟩ := ih hb
    have hid' : ∀ p ∈ t.list, p.2.id < u32Mod := fun p hp => by
      have := h2 p hp
      omega
    have hmain := read_csv_save_csv t hnl hid'
    rw [hcsv] at hmain
    have ht' := Option.some.inj hmain
    have hrow : ∀ r ∈ t.list.map truncItem,
        r.1 = r.2.description ∧ toAsciiLower r.2.description = r.2.description ∧
        r.2.id < t.next_id := by
      intro r hrm
      obtain ⟨p, hp, rfl⟩ := List.mem_map.mp hrm
      refine ⟨rfl, ?_, h2 p hp⟩
      have hfix := (h1 p hp).2
      have hdata : p.2.description.data.map asciiLowerChar = p.2.description.data :=
        congrArg String.data hfix
      exact congrArg String.mk
        (map_eq_self_of_forall
          (fun c hc => eq_of_map_eq_self hdata c (mem_of_mem_takeWhile hc)))
    have hids_eq : ((t.list.map truncItem).map fun p => p.2.id) =
        t.list.map fun p => p.2.id := by
      rw [List.map_map]
      rfl
    have hbound : (t.list.map truncItem).foldl
        (fun m kv => if m < kv.2.id then kv.2.id else m) 0 + 1 ≤ n + 1 := by
      rcases hl : t.list.map truncItem with _ | ⟨r0, rrest⟩
      · show 0 + 1 ≤ n + 1
        omega
      · have hpos : 0 < t.next_id := by
          have h0 := hrow r0 (by rw [hl]; exact List.mem_cons_self _ _)
          omega
        have hlt := foldl_idMax_lt (k := t.next_id) (l := t.list.map truncItem) (a := 0)
          hpos (fun r hrm => (hrow r hrm).2.2)
        rw [hl] at hlt
        omega
    have hmodN : ((t.list.map truncItem).foldl
        (fun m kv => if m < kv.2.id then kv.2.id else m) 0 + 1) % u32Mod =
        (t.list.map truncItem).foldl
          (fun m kv => if m < kv.2.id then kv.2.id else m) 0 + 1 :=
      Nat.mod_eq_of_lt (by omega)
    rw [ht']
    unfold IdsBelow IdsNodup KeysNodup
    refine ⟨?_, ?_, ?_, ?_, ?_⟩
    · intro p hp
      rcases mem_foldl_hmInsert _ _ hp with habs | hm
      · exact absurd habs (List.not_mem_nil p)
      · exact ⟨(hrow p hm).1, (hrow p hm).2.1⟩
    · intro p hp
      show p.2.id < ((t.list.map truncItem).foldl
        (fun m kv => if m < kv.2.id then kv.2.id else m) 0 + 1) % u32Mod
      rw [hmodN]
      rcases mem_foldl_hmInsert _ _ hp with habs | hm
      · exact absurd habs (List.not_mem_nil p)
      · have := le_foldl_idMax (l := t.list.map truncItem) 0 hm
        omega
    · exact ids_nodup_foldl _ []
        (by
          show (([] : List (String × TodoItem)).map (fun p => p.2.id) ++
            (t.list.map truncItem).map fun p => p.2.id).Nodup
          rw [List.map_nil, List.nil_append, hids_eq]
          exact h3)
    · exact keysNodup_foldl_hmInsert _ [] List.nodup_nil
    · show ((t.list.map truncItem).foldl
        (fun m kv => if m < kv.2.id then kv.2.id else m) 0 + 1) % u32Mod ≤ n + 1
      rw [hmodN]
      exact hbound
  | step_json hr' hjson ih =>
    rename_i n t t'
    intro hb
    obtain ⟨h1, h2, h3, h4, h5⟩ := ih hb
    have hwf : Wf t := ⟨h4, by omega, fun p hp => by have := h2 p hp; omega⟩
    have hok : TodoList.read_json (.ok t.to_json) = .ok t := by
      show jsonOutcome (decodeTodoList t.to_json) = .ok t
      rw [decodeTodoList_encode t hwf]
      rfl
    rw [hjson] at hok
    have hte := Except.ok.inj hok
    rw [hte]
    exact ⟨h1, h2, h3, h4, h5⟩

/-- C6 (amended): every collection reachable from the empty collection
through insert, update and remove, through JSON round-trips of its own
serialized form, and through CSV round-trips of its own serialized form when
no stored description contains a line feed (and with fewer than `2^32 - 2`
inserts, the `u32` wrap bound), satisfies the invariants: every key is the
lowercased description of its item, every stored id is below `next_id`, and
no two items share an id.  CSV deserialization of a collection holding a
description with an embedded line feed can break id-uniqueness (see the
counterexample), and deserialization of arbitrary external content satisfies
no invariant at all. -/
theorem c6_reachable_invariant {n : Nat} {t : TodoList} (hr : Reachable n t)
    (hb : n + 2 < u32Mod) : KeyNorm t ∧ IdsBelow t ∧ IdsNodup t := by
  obtain ⟨h1, h2, h3, _, _⟩ := reachable_aux hr hb
  refine ⟨?_, h2, h3⟩
  intro p hp
  rw [(h1 p hp).1, (h1 p hp).2]

/-- C6 witness: the invariants at the reachable one-item collection built by
`insert "Milk"`. -/
theorem c6_witness :
    KeyNorm (TodoList.build.insert "Milk").2 ∧ IdsBelow (TodoList.build.insert "Milk").2 ∧
      IdsNodup (TodoList.build.insert "Milk").2 :=
  c6_reachable_invariant (Reachable.step_insert "Milk" Reachable.base) (by decide)

/-- C6 counterexample: inserting the description `"a,b\n1,c"` (its line feed
smuggles an extra CSV row) and then `"z"`, saving to CSV and deserializing
the resulting file yields a collection in which two items share id 1 — the
id-uniqueness invariant is violated by a collection produced from reachable
states by the public CSV deserialization. -/
theorem c6_counterexample :
    TodoList.read_csv ((TodoList.build.insert "a,b\n1,c").2.insert "z").2.save_csv =
      some ⟨[("a", ⟨0, "a", false⟩), ("c", ⟨1, "c", false⟩), ("z", ⟨1, "z", false⟩)], 2⟩ ∧
    ¬ IdsNodup
      ⟨[("a", ⟨0, "a", false⟩), ("c", ⟨1, "c", false⟩), ("z", ⟨1, "z", false⟩)], 2⟩ := by
  constructor
  · rfl
  · unfold IdsNodup
    decide
